import Mathlib

/-!
Verification of the chunk-download orchestrator, the HasSector job queue and
the Merkle range-proof engine of the skynet repository, against its
natural-language specification.

Shallow embedding conventions:
* Go `time.Time` and `time.Duration` are modelled as `Int` (nanoseconds).
  `time.Time.Sub` (and hence `time.Until`) clamps to the int64 range, which
  `timeSub` mirrors; plain `time.Duration` addition wraps like int64 addition,
  which `i64add` mirrors.
* Go `uint64` arithmetic is `Nat` arithmetic reduced `% 2^64` where the source
  can overflow or underflow.
* `types.Currency` is an unbounded `Nat` (Go uses `big.Int`).
* Byte strings are `List Nat`; host public keys are opaque `Nat` identifiers.
-/

namespace Skynet

/-- Largest value of Go's int64 / time.Duration. -/
def maxInt64 : Int := 2 ^ 63 - 1

/-- Smallest value of Go's int64 / time.Duration. -/
def minInt64 : Int := -(2 ^ 63)

/-- Modulus of Go's uint64 arithmetic. -/
def two64 : Nat := 2 ^ 64

/-- Go `time.Time.Sub`: the difference clamped to the int64 range. -/
def timeSub (t u : Int) : Int := max minInt64 (min maxInt64 (t - u))

/-- Go `time.Until(t)` evaluated at time `now`. -/
def timeUntil (now t : Int) : Int := timeSub t now

/-- Reduce an integer into the int64 range the way Go's two's-complement
addition wraps. -/
def wrap64 (x : Int) : Int := (x + 2 ^ 63) % 2 ^ 64 - 2 ^ 63

/-- Go int64 addition (wraps on overflow). -/
def i64add (a b : Int) : Int := wrap64 (a + b)

/-- Go uint64 subtraction `a - b` (wraps on underflow), for `a < 2^64`. -/
def u64sub (a b : Nat) : Nat := (a + two64 - b % two64) % two64

/-- The 50ms grace period of `needsOverdrive`, in nanoseconds. -/
def msec50 : Int := 50 * 1000000

/-- Sia's `crypto.SegmentSize` (64 bytes). -/
def cryptoSegmentSize : Nat := 64

/-- Sia's `modules.SectorSize` (4 MiB). -/
def sectorSize : Nat := 2 ^ 22

/-- The slice of `modules.ErasureCoder` that the download orchestrator
consults: `MinPieces`, `NumPieces` and `SupportsPartialEncoding` (which
returns a segment size together with a support flag). -/
structure ErasureCoder where
  minPieces : Nat
  numPieces : Nat
  segSize : Nat
  segSupported : Bool
deriving Repr, DecidableEq

/-- A worker, reduced to the values `findBestWorker` reads from it: its host
public key and the current read-queue estimates
`callExpectedJobTime(pieceLength)` / `callExpectedJobCost(pieceLength)` for
the piece length of the download at hand. -/
structure Worker where
  hostPubKeyStr : Nat
  readTime : Int
  jobCost : Nat
deriving Repr, DecidableEq

/-- `pieceDownload` of the source: one worker's attempt at one piece. -/
structure PieceDownload where
  completed : Bool
  failed : Bool
  launched : Bool
  expectedCompletionTime : Int
  worker : Worker
deriving Repr, DecidableEq

/-- `pcwsUnresolvedWorker`: a worker whose HasSector probe is in flight. -/
structure UnresolvedWorker where
  expectedCompletionTime : Int
  worker : Worker
deriving Repr, DecidableEq

/-- The slice of `projectChunkWorkerSet` read by the orchestrator: the
erasure coder, the unresolved workers, the chunk's piece roots, and the
per-block overhead of the master key's cipher type. -/
structure ProjectChunkWorkerSet where
  erasureCoder : ErasureCoder
  unresolvedWorkers : List UnresolvedWorker
  pieceRoots : List Nat
  masterKeyOverhead : Nat
deriving Repr, DecidableEq

/-- `projectDownloadChunk`: the per-download orchestrator state. -/
structure ProjectDownloadChunk where
  chunkLength : Nat
  chunkOffset : Nat
  pricePerMS : Nat
  pieceLength : Nat
  pieceOffset : Nat
  availablePieces : List (List PieceDownload)
  dataPieces : List (Option (List Nat))
  workerSet : ProjectChunkWorkerSet
deriving Repr, DecidableEq

/-- `getPieceOffsetAndLen` of the source, verbatim: derives the
segment-aligned piece offset and the piece length for an in-chunk request.
Note that Go panics on division by zero (`minPieces = 0`); `Nat` division
returns 0 there, and every theorem below uses a positive `minPieces`. -/
def getPieceOffsetAndLen (ec : ErasureCoder) (offset length : Nat) : Nat × Nat :=
  let pieceSegmentSize := if ec.segSupported then ec.segSize else sectorSize
  if pieceSegmentSize = 0 ∨ pieceSegmentSize % cryptoSegmentSize ≠ 0 then
    (0, sectorSize)
  else
    let pieceOffset := offset / ec.minPieces / pieceSegmentSize * pieceSegmentSize
    let chunkSegmentSize := (pieceSegmentSize * ec.minPieces) % two64
    let cto0 := (offset + length) % two64
    let overflow := cto0 % chunkSegmentSize
    let cto := if overflow ≠ 0 then (cto0 + (chunkSegmentSize - overflow)) % two64 else cto0
    let pieceTerminationOffset := cto / pieceSegmentSize
    (pieceOffset, u64sub pieceTerminationOffset pieceOffset)

/-- Result of `finalize`: a successful download response, a failure sent down
the response channel, or a Go runtime panic (out-of-range slice). -/
inductive FinalizeResult where
  | response (data : List Nat)
  | failErr
  | panicked
deriving Repr, DecidableEq

/-- Go slice expression `data[a:b]`: defined only when `a ≤ b ≤ len(data)`,
a runtime panic otherwise. -/
def sliceBytes (data : List Nat) (a b : Nat) : Option (List Nat) :=
  if a ≤ b ∧ b ≤ data.length then some ((data.take b).drop a) else none

/-- The `finalize` method of `projectDownloadChunk`, verbatim from the source:
it computes `chunkDLOffset` and `chunkDLLength` (both as
`pieceOffset * MinPieces`), asks the erasure coder to `Recover` that many
bytes from the sparse piece array, and slices the caller's requested range
out of the decoded buffer. The erasure coder's `Recover` is external to the
repository and is passed in as a function from the sparse pieces and the
byte count to the decoded bytes (`none` = decode error, which the source
turns into a failure response). -/
def finalize (recover : List (Option (List Nat)) → Nat → Option (List Nat))
    (pdc : ProjectDownloadChunk) : FinalizeResult :=
  let ec := pdc.workerSet.erasureCoder
  let chunkDLOffset := (pdc.pieceOffset * ec.minPieces) % two64
  let chunkDLLength := (pdc.pieceOffset * ec.minPieces) % two64
  match recover pdc.dataPieces ((chunkDLOffset + chunkDLLength) % two64) with
  | none => .failErr
  | some data =>
    let chunkStartWithinData := u64sub pdc.chunkOffset chunkDLOffset
    let chunkEndWithinData := (pdc.chunkLength + chunkStartWithinData) % two64
    match sliceBytes data chunkStartWithinData chunkEndWithinData with
    | none => .panicked
    | some d => .response d

/-- Erasure coder used by the concrete evaluations below: a 2-of-3 code with
64-byte segments. -/
def ecC4 : ErasureCoder := { minPieces := 2, numPieces := 3, segSize := 64, segSupported := true }

/-- C4: at a 2-of-3 erasure coder with segment size 64 and the request
`(offset, length) = (0, 128)`, the source's `getPieceOffsetAndLen` returns
`(pieceOffset, pieceLength) = (0, 2)`: it divides the rounded-up chunk
termination offset by the segment size instead of by the number of data
pieces. The resulting length is neither segment-aligned nor does it cover
the requested range, refuting two of the four claimed properties. -/
theorem c4_piece_offset_len_violated :
    getPieceOffsetAndLen ecC4 0 128 = (0, 2) ∧
    ¬ ((getPieceOffsetAndLen ecC4 0 128).2 % ecC4.segSize = 0) ∧
    ¬ (((getPieceOffsetAndLen ecC4 0 128).1 + (getPieceOffsetAndLen ecC4 0 128).2)
        * ecC4.minPieces ≥ 0 + 128) := by
  refine ⟨?_, ?_, ?_⟩ <;> decide

/-- Download state used for the C3 evaluation: a whole-chunk request of 256
bytes over the 2-of-3 coder, so `pieceOffset = 0` and `pieceLength = 128`. -/
def pdcC3 : ProjectDownloadChunk :=
  { chunkLength := 256, chunkOffset := 0, pricePerMS := 1,
    pieceLength := 128, pieceOffset := 0,
    availablePieces := [[], [], []],
    dataPieces := [some [], some [], none],
    workerSet :=
      { erasureCoder := ecC4, unresolvedWorkers := [], pieceRoots := [1, 2, 3],
        masterKeyOverhead := 0 } }

/-- C3: `finalize` computes `chunkDLLength = pieceOffset * MinPieces` instead
of `pieceLength * MinPieces`. At `pdcC3` the claimed decoded-byte count is
`pieceOffset*2 + pieceLength*2 = 256`, but the source asks `Recover` for 0
bytes: a decoder honouring the request with 0 bytes then makes the source
panic slicing `data[0:256]`, and a decoder that only accepts the claimed
256-byte request is never asked for it (the source hits the decode-error
path instead). -/
theorem c3_finalize_length_bug :
    finalize (fun _ n => if n = 0 then some (List.replicate n 0) else none) pdcC3 = .panicked ∧
    finalize (fun _ n => if n = 256 then some (List.replicate n 0) else none) pdcC3 = .failErr ∧
    pdcC3.pieceOffset * ecC4.minPieces + pdcC3.pieceLength * ecC4.minPieces = 256 := by
  refine ⟨?_, ?_, ?_⟩ <;> decide

/-- Inner loop of `finished` over one piece's downloads: the first completed
download breaks out counting the piece both completed and hopeful; otherwise
any unfailed download marks the piece hopeful. Returns
(piece counts as completed, piece counts as hopeful). -/
def scanHopeful : List PieceDownload → Bool → Bool × Bool
  | [], hopeful => (false, hopeful)
  | pd :: rest, hopeful =>
    if pd.completed then (true, true)
    else scanHopeful rest (hopeful || !pd.failed)

/-- Result of the `finished` method: the download is complete, can no longer
complete (the not-enough-pieces error), or is still in progress. -/
inductive FinishedResult where
  | complete
  | insufficient
  | inProgress
deriving Repr, DecidableEq

/-- One step of the counting loop of `finished`: add the piece's
completed/hopeful contribution to the running pair of counters. -/
def finishedStep (acc : Nat × Nat) (piece : List PieceDownload) : Nat × Nat :=
  let s := scanHopeful piece false
  (acc.1 + if s.1 then 1 else 0, acc.2 + if s.2 then 1 else 0)

/-- The `finished` method of `projectDownloadChunk`, verbatim: count completed
and hopeful pieces, declare completion at `MinPieces` completed ones, add the
unresolved workers to the hopeful count and fail when that total cannot reach
`MinPieces`. -/
def finished (pdc : ProjectDownloadChunk) : FinishedResult :=
  let counts := pdc.availablePieces.foldl finishedStep ((0 : Nat), (0 : Nat))
  if counts.1 ≥ pdc.workerSet.erasureCoder.minPieces then .complete
  else if counts.2 + pdc.workerSet.unresolvedWorkers.length
      < pdc.workerSet.erasureCoder.minPieces then .insufficient
  else .inProgress

/-- Action taken by one pass of `threadedCollectAndOverdrivePieces` before it
blocks on its channels: finalize the download, emit a failure on the response
channel, or keep waiting for responses. -/
inductive CollectStep where
  | finalizePieces
  | failDownload
  | awaitResponse
deriving Repr, DecidableEq

/-- Head of the `threadedCollectAndOverdrivePieces` loop, verbatim: `finished`
decides between finalizing, emitting the failure, and waiting. -/
def collectAndOverdriveStep (pdc : ProjectDownloadChunk) : CollectStep :=
  match finished pdc with
  | .complete => .finalizePieces
  | .insufficient => .failDownload
  | .inProgress => .awaitResponse

/-- A piece some worker has completed. -/
def pieceHasCompleted (piece : List PieceDownload) : Bool :=
  piece.any (·.completed)

/-- A piece not yet completed that still has an unfailed (launched or
launchable) worker. -/
def pieceStillHopeful (piece : List PieceDownload) : Bool :=
  !piece.any (·.completed) && piece.any (fun pd => !pd.failed)

/-- The hopeful-piece predicate exactly as the code counts it: completed or
still holding an unfailed worker. -/
def pieceHopefulCode (p : List PieceDownload) : Bool :=
  pieceHasCompleted p || p.any (fun pd => !pd.failed)

theorem scanHopeful_eq (l : List PieceDownload) (h : Bool) :
    scanHopeful l h =
      (l.any (·.completed), h || l.any (·.completed) || l.any (fun pd => !pd.failed)) := by
  induction l generalizing h with
  | nil => simp [scanHopeful]
  | cons pd rest ih =>
    by_cases hc : pd.completed = true
    · simp [scanHopeful, hc]
    · simp only [Bool.not_eq_true] at hc
      rw [scanHopeful, if_neg (by simp [hc]), ih]
      simp [hc, Bool.or_assoc, Bool.or_comm, Bool.or_left_comm]

theorem pieceHopefulCode_eq (p : List PieceDownload) :
    pieceHopefulCode p = (pieceHasCompleted p || pieceStillHopeful p) := by
  unfold pieceHopefulCode pieceStillHopeful pieceHasCompleted
  cases h : p.any (·.completed) <;> simp [h]

theorem countP_or_split (l : List (List PieceDownload)) :
    l.countP pieceHopefulCode =
      l.countP pieceHasCompleted + l.countP pieceStillHopeful := by
  induction l with
  | nil => rfl
  | cons piece rest ih =>
    rw [List.countP_cons, List.countP_cons, List.countP_cons, ih, pieceHopefulCode_eq]
    by_cases h1 : pieceHasCompleted piece = true
    · have h2 : pieceStillHopeful piece = false := by
        unfold pieceStillHopeful
        unfold pieceHasCompleted at h1
        simp [h1]
      simp only [h1, h2]
      simp only [Bool.true_or]
      simp
      omega
    · simp only [Bool.not_eq_true] at h1
      simp only [h1, Bool.false_or]
      cases h2 : pieceStillHopeful piece <;> simp <;> omega

theorem finishedStep_eq (acc : Nat × Nat) (piece : List PieceDownload) :
    finishedStep acc piece =
      (acc.1 + if pieceHasCompleted piece then 1 else 0,
       acc.2 + if pieceHopefulCode piece then 1 else 0) := by
  unfold finishedStep pieceHasCompleted pieceHopefulCode pieceHasCompleted
  rw [scanHopeful_eq]
  simp

theorem finished_counts (l : List (List PieceDownload)) (a b : Nat) :
    l.foldl finishedStep (a, b) =
    (a + l.countP pieceHasCompleted, b + l.countP pieceHopefulCode) := by
  induction l generalizing a b with
  | nil => simp
  | cons piece rest ih =>
    rw [List.foldl_cons, finishedStep_eq, ih, List.countP_cons, List.countP_cons]
    by_cases h1 : pieceHasCompleted piece = true <;>
      by_cases h2 : pieceHopefulCode piece = true <;>
        simp only [Bool.not_eq_true] at * <;> simp [h1, h2] <;> omega

/-- C5: for every download state, either the number of completed pieces plus
the number of not-yet-completed pieces that still have an unfailed worker
plus the number of unresolved workers reaches `MinPieces`, or `finished`
returns the not-enough-pieces error and the collection loop emits a failure
on the response channel. -/
theorem c5_insufficient_pieces_invariant (pdc : ProjectDownloadChunk) :
    pdc.availablePieces.countP pieceHasCompleted
      + pdc.availablePieces.countP pieceStillHopeful
      + pdc.workerSet.unresolvedWorkers.length
      ≥ pdc.workerSet.erasureCoder.minPieces
    ∨ (finished pdc = .insufficient ∧ collectAndOverdriveStep pdc = .failDownload) := by
  by_cases hge :
      pdc.availablePieces.countP pieceHasCompleted
        + pdc.availablePieces.countP pieceStillHopeful
        + pdc.workerSet.unresolvedWorkers.length
        ≥ pdc.workerSet.erasureCoder.minPieces
  · exact Or.inl hge
  · refine Or.inr ?_
    have hfin : finished pdc = .insufficient := by
      unfold finished
      rw [finished_counts]
      rw [countP_or_split]
      have h1 : ¬ (0 + pdc.availablePieces.countP pieceHasCompleted
          ≥ pdc.workerSet.erasureCoder.minPieces) := by omega
      have h2 : 0 + (pdc.availablePieces.countP pieceHasCompleted
            + pdc.availablePieces.countP pieceStillHopeful)
          + pdc.workerSet.unresolvedWorkers.length
          < pdc.workerSet.erasureCoder.minPieces := by omega
      simp only [if_neg h1, if_pos h2]
    exact ⟨hfin, by unfold collectAndOverdriveStep; rw [hfin]⟩

/-- Inner step of the `needsOverdrive` scan over one piece's downloads:
record a launched-without-fail worker and track the latest expected
completion time among the not-yet-completed ones. -/
def odInner (st : Bool × Int) (pd : PieceDownload) : Bool × Int :=
  if pd.launched && !pd.failed then
    (true,
     if !pd.completed && decide (st.2 < pd.expectedCompletionTime) then
       pd.expectedCompletionTime
     else st.2)
  else st

/-- Outer step of the `needsOverdrive` scan: count pieces that have a
launched-without-fail worker, threading the latest return time through. -/
def odOuter (acc : Nat × Int) (piece : List PieceDownload) : Nat × Int :=
  let inner := piece.foldl odInner (false, acc.2)
  (acc.1 + if inner.1 then 1 else 0, inner.2)

/-- The `needsOverdrive` method, verbatim: overdrive immediately when fewer
than `MinPieces` pieces have a launched-without-fail worker, or when the
latest expected completion time has already passed; otherwise report a
50ms-padded wait. The Go zero `time.Time` is the integer 0. -/
def needsOverdrive (pdc : ProjectDownloadChunk) (now : Int) : Int × Bool :=
  let scan := pdc.availablePieces.foldl odOuter ((0 : Nat), (0 : Int))
  if scan.1 < pdc.workerSet.erasureCoder.minPieces then (0, true)
  else
    let untilLatest := timeSub scan.2 now
    if untilLatest ≤ 0 then (0, true)
    else (i64add untilLatest msec50, false)

/-- A piece with a launched and not-failed worker. -/
def pieceLaunchedWithoutFail (piece : List PieceDownload) : Bool :=
  piece.any fun pd => pd.launched && !pd.failed

/-- A launched, not-failed, not-completed piece download. -/
def outstandingDownload (pd : PieceDownload) : Bool :=
  (pd.launched && !pd.failed) && !pd.completed

/-- The latest expected completion time among outstanding piece downloads
(0, the zero time, when there are none). -/
def latestExpectedCompletion (pdc : ProjectDownloadChunk) : Int :=
  (pdc.availablePieces.flatten.filter outstandingDownload).foldl
    (fun m pd => max m pd.expectedCompletionTime) 0

theorem if_lt_eq_max (a b : Int) : (if a < b then b else a) = max a b := by
  rw [max_def]
  split_ifs <;> omega

theorem odInner_fold (piece : List PieceDownload) (b : Bool) (m : Int) :
    piece.foldl odInner (b, m) =
      (b || pieceLaunchedWithoutFail piece,
       (piece.filter outstandingDownload).foldl
         (fun m pd => max m pd.expectedCompletionTime) m) := by
  induction piece generalizing b m with
  | nil => simp [pieceLaunchedWithoutFail]
  | cons pd rest ih =>
    rw [List.foldl_cons]
    by_cases hl : (pd.launched && !pd.failed) = true
    · by_cases hc : pd.completed = true
      · have ho : outstandingDownload pd = false := by
          simp [outstandingDownload, hc]
        rw [show odInner (b, m) pd = (true, m) by simp [odInner, hl, hc]]
        rw [ih]
        simp [pieceLaunchedWithoutFail, hl, List.filter_cons, ho]
      · simp only [Bool.not_eq_true] at hc
        have ho : outstandingDownload pd = true := by
          simp [outstandingDownload, hl, hc]
        rw [show odInner (b, m) pd
            = (true, if m < pd.expectedCompletionTime then pd.expectedCompletionTime else m) by
          simp [odInner, hl, hc]]
        rw [ih, if_lt_eq_max]
        simp [pieceLaunchedWithoutFail, hl, List.filter_cons, ho]
    · have ho : outstandingDownload pd = false := by
        simp only [Bool.not_eq_true] at hl
        simp [outstandingDownload, hl]
      rw [show odInner (b, m) pd = (b, m) by simp [odInner, hl]]
      rw [ih]
      simp only [Bool.not_eq_true] at hl
      simp [pieceLaunchedWithoutFail, hl, List.filter_cons, ho]

theorem odOuter_fold (pieces : List (List PieceDownload)) (n : Nat) (m : Int) :
    pieces.foldl odOuter (n, m) =
      (n + pieces.countP pieceLaunchedWithoutFail,
       (pieces.flatten.filter outstandingDownload).foldl
         (fun m pd => max m pd.expectedCompletionTime) m) := by
  induction pieces generalizing n m with
  | nil => simp
  | cons piece rest ih =>
    rw [List.foldl_cons]
    rw [show odOuter (n, m) piece
        = (n + if pieceLaunchedWithoutFail piece then 1 else 0,
           (piece.filter outstandingDownload).foldl
             (fun m pd => max m pd.expectedCompletionTime) m) by
      unfold odOuter
      rw [odInner_fold]
      simp]
    rw [ih, List.countP_cons, List.flatten_cons, List.filter_append, List.foldl_append]
    by_cases h : pieceLaunchedWithoutFail piece = true <;> simp [h] <;> omega

theorem foldl_max_bounds (l : List PieceDownload) (m : Int)
    (hm : 0 ≤ m ∧ m < 2 ^ 62)
    (hl : ∀ pd ∈ l, 0 ≤ pd.expectedCompletionTime ∧ pd.expectedCompletionTime < 2 ^ 62) :
    0 ≤ l.foldl (fun m pd => max m pd.expectedCompletionTime) m ∧
      l.foldl (fun m pd => max m pd.expectedCompletionTime) m < 2 ^ 62 := by
  induction l generalizing m with
  | nil => exact hm
  | cons pd rest ih =>
    rw [List.foldl_cons]
    refine ih (max m pd.expectedCompletionTime) ?_ ?_
    · have := hl pd (by simp)
      constructor
      · exact le_max_of_le_left hm.1
      · exact max_lt hm.2 this.2
    · intro x hx
      exact hl x (by simp [hx])

theorem timeSub_in_range (t u : Int) (h1 : minInt64 ≤ t - u) (h2 : t - u ≤ maxInt64) :
    timeSub t u = t - u := by
  unfold timeSub
  rw [min_eq_right h2, max_eq_right h1]

theorem wrap64_in_range (x : Int) (h1 : minInt64 ≤ x) (h2 : x ≤ maxInt64) :
    wrap64 x = x := by
  unfold wrap64
  unfold minInt64 at h1
  unfold maxInt64 at h2
  rw [Int.emod_eq_of_lt (by omega) (by omega)]
  omega

/-- C6: under sane clock bounds, `needsOverdrive` returns `(0, true)` when
fewer than `MinPieces` pieces have a launched-without-fail worker, returns
`(0, true)` when the latest expected completion time among launched,
not-failed, not-completed piece downloads has already passed, and otherwise
returns that latest time minus now plus 50 milliseconds together with
`false`. -/
theorem c6_needs_overdrive (pdc : ProjectDownloadChunk) (now : Int)
    (hnow : 0 < now ∧ now < 2 ^ 62)
    (hect : ∀ pd ∈ pdc.availablePieces.flatten,
      0 ≤ pd.expectedCompletionTime ∧ pd.expectedCompletionTime < 2 ^ 62) :
    needsOverdrive pdc now =
      if pdc.availablePieces.countP pieceLaunchedWithoutFail
          < pdc.workerSet.erasureCoder.minPieces then (0, true)
      else if latestExpectedCompletion pdc ≤ now then (0, true)
      else (latestExpectedCompletion pdc - now + msec50, false) := by
  have hL : 0 ≤ latestExpectedCompletion pdc ∧ latestExpectedCompletion pdc < 2 ^ 62 := by
    unfold latestExpectedCompletion
    refine foldl_max_bounds _ 0 (by omega) ?_
    intro pd hpd
    exact hect pd (List.mem_of_mem_filter hpd)
  unfold needsOverdrive
  rw [odOuter_fold]
  simp only [Nat.zero_add]
  have hfold : (pdc.availablePieces.flatten.filter outstandingDownload).foldl
      (fun m pd => max m pd.expectedCompletionTime) 0 = latestExpectedCompletion pdc := rfl
  rw [hfold]
  by_cases hmin : pdc.availablePieces.countP pieceLaunchedWithoutFail
      < pdc.workerSet.erasureCoder.minPieces
  · simp [hmin]
  · simp only [if_neg hmin]
    have hsub : timeSub (latestExpectedCompletion pdc) now = latestExpectedCompletion pdc - now := by
      refine timeSub_in_range _ _ ?_ ?_
      · unfold minInt64
        omega
      · unfold maxInt64
        omega
    rw [hsub]
    by_cases hle : latestExpectedCompletion pdc - now ≤ 0
    · rw [if_pos hle, if_pos (by omega)]
    · rw [if_neg hle, if_neg (by omega)]
      have : i64add (latestExpectedCompletion pdc - now) msec50
          = latestExpectedCompletion pdc - now + msec50 := by
        unfold i64add
        refine wrap64_in_range _ ?_ ?_
        · unfold minInt64 msec50
          omega
        · unfold maxInt64 msec50
          omega
      rw [this]

/-- Concrete download state for the C6 witness: one piece, one outstanding
worker expected at time 2000, a 1-of-1 erasure code. -/
def pdcC6 : ProjectDownloadChunk :=
  { chunkLength := 64, chunkOffset := 0, pricePerMS := 1,
    pieceLength := 64, pieceOffset := 0,
    availablePieces := [[{ completed := false, failed := false, launched := true,
                           expectedCompletionTime := 2000,
                           worker := { hostPubKeyStr := 1, readTime := 10, jobCost := 0 } }]],
    dataPieces := [none],
    workerSet :=
      { erasureCoder := { minPieces := 1, numPieces := 1, segSize := 64, segSupported := true },
        unresolvedWorkers := [], pieceRoots := [5], masterKeyOverhead := 0 } }

/-- Witness for C6 at `pdcC6` and `now = 1000`: the hypotheses hold and the
overdrive check reports a wait of `1000 + 50ms` nanoseconds. -/
theorem c6_needs_overdrive_witness :
    needsOverdrive pdcC6 1000 = (1000 + msec50, false) := by
  have h := c6_needs_overdrive pdcC6 1000 (by decide) (by decide)
  rw [h]
  decide

/-- Result of the prefix of `managedDownload` that runs before any worker is
launched: either the early encryption-overhead rejection, or the fully built
`projectDownloadChunk` state (worker launching and the collection thread are
concurrent I/O and happen after this point in the source). -/
inductive ManagedDownloadResult where
  | rejectedEncryptionOverhead
  | launched (pdc : ProjectDownloadChunk)
deriving Repr, DecidableEq

/-- The `managedDownload` method of `projectChunkWorkerSet` up to (and
including) building the download state, verbatim: a master key with non-zero
per-block overhead rejects any request that is not exactly the whole chunk
(`offset = 0` and `length = SectorSize * MinPieces`, as uint64 values);
otherwise the piece offset and length are derived and the state is built. -/
def managedDownload (pcws : ProjectChunkWorkerSet) (pricePerMS offset length : Nat) :
    ManagedDownloadResult :=
  let ec := pcws.erasureCoder
  if pcws.masterKeyOverhead ≠ 0 ∧ ¬(offset = 0 ∧ length = (sectorSize * ec.minPieces) % two64) then
    .rejectedEncryptionOverhead
  else
    let pol := getPieceOffsetAndLen ec offset length
    .launched
      { chunkOffset := offset, chunkLength := length, pricePerMS := pricePerMS,
        pieceOffset := pol.1, pieceLength := pol.2,
        availablePieces := List.replicate ec.numPieces [],
        dataPieces := List.replicate ec.numPieces none,
        workerSet := pcws }

/-- C7: for a master key cipher with non-zero per-block overhead,
`managedDownload` rejects the request before building any state unless it
covers the whole chunk (`offset = 0`, `length = SectorSize * MinPieces`);
with zero overhead no such rejection happens for any offset and length. -/
theorem c7_encryption_overhead_rejection (pcws : ProjectChunkWorkerSet)
    (pricePerMS offset length : Nat)
    (hmin : pcws.erasureCoder.minPieces < 2 ^ 40) (hlen : length < 2 ^ 64) :
    (pcws.masterKeyOverhead ≠ 0 →
      ((∃ pdc, managedDownload pcws pricePerMS offset length = .launched pdc) ↔
        (offset = 0 ∧ length = sectorSize * pcws.erasureCoder.minPieces))) ∧
    (pcws.masterKeyOverhead = 0 →
      ∃ pdc, managedDownload pcws pricePerMS offset length = .launched pdc) := by
  have hprod : (sectorSize * pcws.erasureCoder.minPieces) % two64
      = sectorSize * pcws.erasureCoder.minPieces := by
    apply Nat.mod_eq_of_lt
    unfold sectorSize two64
    calc 2 ^ 22 * pcws.erasureCoder.minPieces < 2 ^ 22 * 2 ^ 40 :=
          mul_lt_mul_of_pos_left hmin (by norm_num)
      _ ≤ 2 ^ 64 := by norm_num
  constructor
  · intro hov
    constructor
    · intro hex
      obtain ⟨pdc, hpdc⟩ := hex
      unfold managedDownload at hpdc
      by_cases hc : offset = 0 ∧ length = (sectorSize * pcws.erasureCoder.minPieces) % two64
      · rw [hprod] at hc
        exact hc
      · rw [if_pos ⟨hov, hc⟩] at hpdc
        exact ManagedDownloadResult.noConfusion hpdc
    · intro hc
      unfold managedDownload
      rw [if_neg (by rw [hprod]; tauto)]
      exact ⟨_, rfl⟩
  · intro hov
    unfold managedDownload
    rw [if_neg (by simp [hov])]
    exact ⟨_, rfl⟩

/-- Witness for C7: a 1-of-1 chunk worker set whose cipher has overhead 1
accepts the whole-chunk request `(0, SectorSize)`. -/
theorem c7_encryption_overhead_rejection_witness :
    ∃ pdc,
      managedDownload
        { erasureCoder := { minPieces := 1, numPieces := 1, segSize := 64, segSupported := true },
          unresolvedWorkers := [], pieceRoots := [5], masterKeyOverhead := 1 }
        1 0 sectorSize = .launched pdc := by
  have h := c7_encryption_overhead_rejection
    { erasureCoder := { minPieces := 1, numPieces := 1, segSize := 64, segSupported := true },
      unresolvedWorkers := [], pieceRoots := [5], masterKeyOverhead := 1 }
    1 0 sectorSize (by decide) (by decide)
  exact (h.1 (by decide)).mpr (by decide)

/-- A worker's `jobReadResponse`: the sector root the job read from, whether
the job errored, the returned data and the responding worker's key. -/
structure JobReadResponse where
  sectorRoot : Nat
  err : Bool
  data : List Nat
  workerKey : Nat
deriving Repr, DecidableEq

/-- The piece-index lookup at the top of `handleJobReadResponse`:
`pieceIndex` starts at 0 and is set to the first matching root's index, so an
unmatched root leaves it at 0. -/
def findPieceIndex (roots : List Nat) (root : Nat) : Nat :=
  (roots.findIdx? (· = root)).getD 0

/-- Mark every download of the given worker within one piece as failed. -/
def markFailed (piece : List PieceDownload) (key : Nat) : List PieceDownload :=
  piece.map fun pd => if pd.worker.hostPubKeyStr = key then { pd with failed := true } else pd

/-- Mark every download of the given worker within one piece as completed. -/
def markCompleted (piece : List PieceDownload) (key : Nat) : List PieceDownload :=
  piece.map fun pd => if pd.worker.hostPubKeyStr = key then { pd with completed := true } else pd

/-- The body of `handleJobReadResponse` once the piece index is fixed: on
error mark the responding worker's downloads of that piece failed; on success
store the data as that piece and mark them completed. -/
def integrateResponse (pdc : ProjectDownloadChunk) (jrr : JobReadResponse)
    (pieceIndex : Nat) : ProjectDownloadChunk :=
  if jrr.err then
    { pdc with
      availablePieces := pdc.availablePieces.set pieceIndex
        (markFailed (pdc.availablePieces.getD pieceIndex []) jrr.workerKey) }
  else
    { pdc with
      dataPieces := pdc.dataPieces.set pieceIndex (some jrr.data),
      availablePieces := pdc.availablePieces.set pieceIndex
        (markCompleted (pdc.availablePieces.getD pieceIndex []) jrr.workerKey) }

/-- The `handleJobReadResponse` method, verbatim: locate the piece index by
matching the returned sector root and integrate the response there. -/
def handleJobReadResponse (pdc : ProjectDownloadChunk) (jrr : JobReadResponse) :
    ProjectDownloadChunk :=
  integrateResponse pdc jrr (findPieceIndex pdc.workerSet.pieceRoots jrr.sectorRoot)

theorem findPieceIndex_not_mem (roots : List Nat) (root : Nat)
    (h : root ∉ roots) : findPieceIndex roots root = 0 := by
  unfold findPieceIndex
  have : roots.findIdx? (· = root) = none := by
    rw [List.findIdx?_eq_none_iff]
    intro x hx
    by_cases hxr : x = root
    · exact absurd (hxr ▸ hx) h
    · simp [hxr]
  rw [this]
  rfl

/-- C10: a read response whose sector root matches none of the chunk's piece
roots is attributed to piece index 0: the response is integrated (completed
with its data on success, failed on error) at piece 0 rather than discarded. -/
theorem c10_unmatched_root_goes_to_piece_zero (pdc : ProjectDownloadChunk)
    (jrr : JobReadResponse) (h : jrr.sectorRoot ∉ pdc.workerSet.pieceRoots) :
    handleJobReadResponse pdc jrr = integrateResponse pdc jrr 0 := by
  unfold handleJobReadResponse
  rw [findPieceIndex_not_mem _ _ h]

/-- Witness for C10: a success response whose root 7 is not among the piece
roots `[5]` completes piece 0 for worker 1 and stores its data there. -/
theorem c10_unmatched_root_goes_to_piece_zero_witness :
    handleJobReadResponse pdcC6 { sectorRoot := 7, err := false, data := [9], workerKey := 1 }
      = integrateResponse pdcC6 { sectorRoot := 7, err := false, data := [9], workerKey := 1 } 0 :=
  c10_unmatched_root_goes_to_piece_zero pdcC6
    { sectorRoot := 7, err := false, data := [9], workerKey := 1 } (by decide)

/-- Worker rank constants of the source. -/
def workerRankUnlaunchedPiece : Nat := 1

/-- Rank for a piece whose launched workers all failed or are late. -/
def workerRankLaunchedPiece : Nat := 2

/-- Rank for a piece some in-time worker is already fetching. -/
def workerRankActivePiece : Nat := 3

/-- Rank for a worker whose own prior job is late. -/
def workerRankLate : Nat := 4

/-- The `nullDuration` sentinel (`math.MaxInt64`). -/
def nullDuration : Int := maxInt64

/-- `Currency.Div(...).Uint64()`: floor division with an error when the
quotient does not fit a uint64. Go's big.Int division panics on a zero
divisor; that case is modelled as the error and never arises in the states
used below (`pricePerMS > 0`). -/
def currencyDivUint64 (cost price : Nat) : Option Nat :=
  if price = 0 then none
  else
    let q := cost / price
    if q ≥ two64 then none else some q

/-- The read-time adjustment shared by both loops of `findBestWorker`:
clamp the estimate at zero, then add the price penalty, saturating at
`math.MaxInt64` on any overflow or division error. -/
def adjustReadTime (readTime0 : Int) (cost price : Nat) : Int :=
  let readTime := if readTime0 < 0 then 0 else readTime0
  match currencyDivUint64 cost price with
  | none => maxInt64
  | some p =>
    if (p : Int) > maxInt64 then maxInt64
    else if readTime > maxInt64 - (p : Int) then maxInt64
    else readTime + (p : Int)

/-- Accumulator of the unresolved-worker loop of `findBestWorker`. -/
structure UnresolvedScan where
  bestUnresolvedDuration : Int
  bestWorkerLate : Bool
  bestUnresolvedWaitTime : Int
deriving Repr, DecidableEq

/-- The unresolved-worker loop of `findBestWorker`, verbatim: track the best
cost-adjusted duration, whether the best worker is late, and the wait time. -/
def scanUnresolved (now : Int) (price : Nat) :
    List UnresolvedWorker → UnresolvedScan → UnresolvedScan
  | [], st => st
  | uw :: rest, st =>
    let hasSectorTime0 := timeUntil now uw.expectedCompletionTime
    let hasSectorTime := if hasSectorTime0 < 0 then 0 else hasSectorTime0
    let readTime := adjustReadTime uw.worker.readTime uw.worker.jobCost price
    let adjusted := i64add hasSectorTime readTime
    let betterLateStatus := st.bestWorkerLate && decide (hasSectorTime > 0)
    let betterDuration := decide (adjusted < st.bestUnresolvedDuration)
    scanUnresolved now price rest
      { bestUnresolvedDuration :=
          if betterLateStatus || betterDuration then adjusted else st.bestUnresolvedDuration
        bestWorkerLate := if hasSectorTime > 0 then false else st.bestWorkerLate
        bestUnresolvedWaitTime :=
          if decide (hasSectorTime > 0) && betterDuration then hasSectorTime
          else st.bestUnresolvedWaitTime }

/-- Go map insertion for the `lateWorkers` set of worker keys. -/
def insertKey (l : List Nat) (k : Nat) : List Nat :=
  if k ∈ l then l else k :: l

/-- Accumulator of the first piece-scanning loop of `findBestWorker`. -/
structure PieceScan where
  piecesAvailableToLaunch : Nat
  unlaunchedWorkersAvailable : Bool
  unlaunchedPieces : Bool
  inactivePieces : Bool
  lateWorkers : List Nat
deriving Repr, DecidableEq

/-- Inner loop of the first piece scan, verbatim: returns the per-piece flags
(unlaunched worker available, launched-without-fail, unlaunched piece, piece
has late workers, piece has active workers) and the updated late-worker set. -/
def scanPieceDownloads (now : Int) :
    List PieceDownload → Bool → Bool → Bool → Bool → Bool → List Nat →
    Bool × Bool × Bool × Bool × Bool × List Nat
  | [], uwa, lwf, up, plw, paw, late => (uwa, lwf, up, plw, paw, late)
  | pd :: rest, uwa, lwf, up, plw, paw, late =>
    let uwa := uwa || !pd.launched
    let up := up && !(pd.launched && !pd.failed)
    let lwf := lwf || (pd.launched && !pd.failed)
    let isL := pd.launched && (pd.failed || decide (pd.expectedCompletionTime < now))
    let late := if isL then insertKey late pd.worker.hostPubKeyStr else late
    let plw := plw || isL
    let paw := paw || (!isL && pd.launched)
    scanPieceDownloads now rest uwa lwf up plw paw late

/-- Outer loop of the first piece scan, verbatim. -/
def scanPieces (now : Int) :
    List (List PieceDownload) → PieceScan → PieceScan
  | [], st => st
  | piece :: rest, st =>
    let r := scanPieceDownloads now piece false false true false false st.lateWorkers
    scanPieces now rest
      { piecesAvailableToLaunch :=
          st.piecesAvailableToLaunch + (if r.2.1 || r.1 then 1 else 0)
        unlaunchedWorkersAvailable := st.unlaunchedWorkersAvailable || r.1
        unlaunchedPieces := st.unlaunchedPieces || r.2.2.1
        inactivePieces := st.inactivePieces || (r.2.2.2.1 && !r.2.2.2.2.1)
        lateWorkers := r.2.2.2.2.2 }

/-- The per-piece flag loop of the selection phase, verbatim from the source
including its dead first branch: `pieceCompleted` starts `false` and is only
ever assigned inside `if pieceCompleted`, so it can never become true. -/
def selectFlags (now : Int) : List PieceDownload → Bool → Bool → Bool → Bool × Bool × Bool
  | [], c, a, l => (c, a, l)
  | pd :: rest, c, a, l =>
    if c then (true, a, l)
    else
      selectFlags now rest c
        (a || (pd.launched && decide (now < pd.expectedCompletionTime)))
        (l || pd.launched)

/-- Accumulator of the selection phase of `findBestWorker`. -/
structure SelState where
  bestKnownRank : Nat
  bestKnownDuration : Int
  bestResolvedWorker : Option Worker
  bestPieceIndex : Nat
  bestWorkerResolved : Bool
deriving Repr, DecidableEq

/-- Worker loop of the selection phase, verbatim. Note that the source sets
`bestPieceIndex = uint64(i)` where `i` is the index of the download within
the piece's worker list (the outer loop discards the piece index). -/
def selectWorkersInPiece (price : Nat) (lateWorkers : List Nat)
    (pieceActive pieceLaunched : Bool) :
    List PieceDownload → Nat → SelState → SelState
  | [], _, st => st
  | pd :: rest, i, st =>
    let isLate := decide (pd.worker.hostPubKeyStr ∈ lateWorkers)
    if st.bestKnownRank < workerRankLate ∧ isLate then
      selectWorkersInPiece price lateWorkers pieceActive pieceLaunched rest (i + 1) st
    else
      let readTime := adjustReadTime pd.worker.readTime pd.worker.jobCost price
      if st.bestKnownDuration < readTime then
        selectWorkersInPiece price lateWorkers pieceActive pieceLaunched rest (i + 1) st
      else
        selectWorkersInPiece price lateWorkers pieceActive pieceLaunched rest (i + 1)
          { bestKnownRank :=
              if isLate then workerRankLate
              else if pieceActive then workerRankActivePiece
              else if pieceLaunched then workerRankLaunchedPiece
              else workerRankUnlaunchedPiece
            bestKnownDuration := readTime
            bestResolvedWorker := some pd.worker
            bestPieceIndex := i
            bestWorkerResolved := true }

/-- Piece loop of the selection phase, verbatim: skip completed pieces (dead
code), skip pieces whose rank is worse than the best known rank, otherwise
scan the piece's workers. -/
def selectLoop (now : Int) (price : Nat) (lateWorkers : List Nat) :
    List (List PieceDownload) → SelState → SelState
  | [], st => st
  | piece :: rest, st =>
    let f := selectFlags now piece false false false
    if f.1 then selectLoop now price lateWorkers rest st
    else if st.bestKnownRank < workerRankLaunchedPiece ∧ f.2.2 then
      selectLoop now price lateWorkers rest st
    else if st.bestKnownRank < workerRankActivePiece ∧ f.2.1 then
      selectLoop now price lateWorkers rest st
    else
      selectLoop now price lateWorkers rest
        (selectWorkersInPiece price lateWorkers f.2.1 f.2.2 piece 0 st)

/-- Result of `findBestWorker`: the not-enough-workers error, the all-nil
return, the wait-for-unresolved return (the wake channel is not modelled),
a found worker with a piece index, or the nil-worker return the source logs
as critical. -/
inductive FindBestWorkerResult where
  | insufficientWorkers
  | noNewWorkers
  | waitForUpdate (checkAgainTime : Int)
  | found (w : Worker) (pieceIndex : Nat)
  | foundNil (pieceIndex : Nat)
deriving Repr, DecidableEq

/-- The `findBestWorker` method of `projectDownloadChunk`, verbatim:
unresolved-worker scan, piece scan, the two early-return checks, the
optimistic initialization from the unresolved workers, the selection loop,
and the final dispatch. -/
def findBestWorker (pdc : ProjectDownloadChunk) (now : Int) : FindBestWorkerResult :=
  let ws := pdc.workerSet
  let price := pdc.pricePerMS * ws.erasureCoder.minPieces
  let us := scanUnresolved now price ws.unresolvedWorkers
    { bestUnresolvedDuration := nullDuration, bestWorkerLate := true,
      bestUnresolvedWaitTime := 0 }
  let ps := scanPieces now pdc.availablePieces
    { piecesAvailableToLaunch := 0, unlaunchedWorkersAvailable := false,
      unlaunchedPieces := false, inactivePieces := false, lateWorkers := [] }
  let potentialPieces := ps.piecesAvailableToLaunch + ws.unresolvedWorkers.length
  if potentialPieces < ws.erasureCoder.minPieces then .insufficientWorkers
  else if !ps.unlaunchedWorkersAvailable && decide (ws.unresolvedWorkers.length = 0) then
    .noNewWorkers
  else
    let st0 : SelState :=
      if ws.unresolvedWorkers.length > 0 then
        { bestKnownRank :=
            if ps.unlaunchedPieces then workerRankUnlaunchedPiece
            else if ps.inactivePieces then workerRankLaunchedPiece
            else workerRankActivePiece
          bestKnownDuration := us.bestUnresolvedDuration
          bestResolvedWorker := none, bestPieceIndex := 0, bestWorkerResolved := false }
      else
        { bestKnownRank := workerRankLate, bestKnownDuration := nullDuration
          bestResolvedWorker := none, bestPieceIndex := 0, bestWorkerResolved := true }
    let st := selectLoop now price ps.lateWorkers pdc.availablePieces st0
    if !st.bestWorkerResolved then
      .waitForUpdate (if us.bestWorkerLate then 0 else us.bestUnresolvedWaitTime)
    else
      match st.bestResolvedWorker with
      | some w => .found w st.bestPieceIndex
      | none => .foundNil st.bestPieceIndex

/-- Worker A of the C2 evaluation: it has already completed piece 0. -/
def workerA : Worker := { hostPubKeyStr := 1, readTime := 100, jobCost := 0 }

/-- Worker B of the C2 evaluation: an unlaunched alternative for piece 0. -/
def workerB : Worker := { hostPubKeyStr := 2, readTime := 200, jobCost := 0 }

/-- Download state of the C2 evaluation: a single piece whose download by
worker A is already completed (launched, in time), with worker B still
launchable, over a 1-of-1 erasure code and no unresolved workers. -/
def pdcC2 : ProjectDownloadChunk :=
  { chunkLength := 64, chunkOffset := 0, pricePerMS := 1,
    pieceLength := 64, pieceOffset := 0,
    availablePieces :=
      [[{ completed := true, failed := false, launched := true,
          expectedCompletionTime := 2000, worker := workerA },
        { completed := false, failed := false, launched := false,
          expectedCompletionTime := 0, worker := workerB }]],
    dataPieces := [some [0]],
    workerSet :=
      { erasureCoder := { minPieces := 1, numPieces := 1, segSize := 64, segSupported := true },
        unresolvedWorkers := [], pieceRoots := [5], masterKeyOverhead := 0 } }

/-- C2: `findBestWorker` does not skip completed pieces. At `pdcC2` and
`now = 1000`, piece 0 is already completed (by worker A itself), yet the
selection returns worker A together with piece index 0: the source's
`if pieceCompleted { pieceCompleted = true }` branch is dead code, so the
"skip this piece if the piece has already been completed" check that the
source's own comment announces never fires. -/
theorem c2_completed_piece_not_skipped :
    findBestWorker pdcC2 1000 = .found workerA 0 ∧
    (pdcC2.availablePieces.getD 0 []).any (·.completed) = true := by
  refine ⟨?_, ?_⟩ <;> decide

/-- A HasSector job as its queue stores it: the sector roots it probes and
the start-time stamp `callAddWithEstimate` writes into it. -/
structure JobHasSector where
  sectors : List Nat
  startTime : Int
deriving Repr, DecidableEq

/-- The HasSector job queue: the current percentile durations the
distribution tracker reports via `expectedJobTime()` (`jobTimePercentiles`
is increasing, so the list is sorted), the FIFO of pending jobs, and the
generic queue's kill/cooldown state. -/
structure JobHasSectorQueue where
  percentiles : List Int
  jobs : List JobHasSector
  killed : Bool
  onCooldown : Bool
deriving Repr, DecidableEq

/-- `JobTime.Max`: the last element `jt[len(jt)-1]` (Go panics on an empty
slice; the default 0 stands in for that unreachable case). -/
def jobTimeMax (jt : List Int) : Int := jt.getLastD 0

/-- `ResolveTime`: a distribution's percentile durations wrapped with the
start time of a job. -/
structure ResolveTime where
  start : Int
  times : List Int
deriving Repr, DecidableEq

/-- Errors of `callAddWithEstimate`: `errEstimateAboveMax` and the
unable-to-add error when the generic queue refuses the job. -/
inductive AddJobError where
  | estimateAboveMax
  | unableToAdd
deriving Repr, DecidableEq

/-- Modelled from the spec: the generic job queue's `add` (the
`jobGenericQueue` type is not under the source tree, only its caller is).
Per the spec's failure policy, jobs submitted while the job kind is on
cooldown are rejected immediately, as are jobs submitted to a killed queue;
otherwise the job joins the FIFO. -/
def jobGenericQueueAdd (jq : JobHasSectorQueue) (j : JobHasSector) :
    Option JobHasSectorQueue :=
  if jq.killed || jq.onCooldown then none
  else some { jq with jobs := jq.jobs ++ [j] }

/-- `callAddWithEstimate`, verbatim: if the largest percentile of the current
expected-job-time distribution exceeds `maxEstimate`, return
`errEstimateAboveMax` before touching the queue; otherwise stamp the job's
start time, try to enqueue it, and return the distribution wrapped with that
start time. -/
def callAddWithEstimate (jq : JobHasSectorQueue) (j : JobHasSector)
    (now maxEstimate : Int) : JobHasSectorQueue × Except AddJobError ResolveTime :=
  let estimate := jq.percentiles
  if jobTimeMax estimate > maxEstimate then (jq, .error .estimateAboveMax)
  else
    match jobGenericQueueAdd jq { j with startTime := now } with
    | none => (jq, .error .unableToAdd)
    | some jq2 => (jq2, .ok { start := now, times := estimate })

/-- Queue used by the C8 counterexample: estimate well below the bound, but
the job kind is on cooldown. -/
def jqCooldown : JobHasSectorQueue :=
  { percentiles := [5], jobs := [], killed := false, onCooldown := true }

/-- C8 counterexample: on a queue whose estimate (largest percentile 5) does
not exceed `maxEstimate = 10`, `callAddWithEstimate` does not enqueue the job
and does not return the wrapped distribution — the queue is on cooldown and
the generic add refuses, so the claim's "otherwise it enqueues the job and
returns the distribution wrapped with the job's start time" fails. -/
theorem c8_cooldown_counterexample :
    ¬ (jobTimeMax jqCooldown.percentiles > 10) ∧
    callAddWithEstimate jqCooldown { sectors := [3], startTime := 0 } 7 10
      = (jqCooldown, .error .unableToAdd) ∧
    (callAddWithEstimate jqCooldown { sectors := [3], startTime := 0 } 7 10).1.jobs = [] := by
  exact ⟨by decide, rfl, rfl⟩

theorem getLastD_mem (l : List Int) (d : Int) (h : l ≠ []) : l.getLastD d ∈ l := by
  induction l generalizing d with
  | nil => exact absurd rfl h
  | cons a t ih =>
    rw [List.getLastD_cons]
    cases t with
    | nil => simp [List.getLastD]
    | cons b t2 => exact List.mem_cons_of_mem a (ih a (by simp))

theorem sorted_le_getLastD (l : List Int) (hs : l.Pairwise (· ≤ ·)) :
    ∀ d x, x ∈ l → x ≤ l.getLastD d := by
  induction l with
  | nil =>
    intro d x hx
    simp at hx
  | cons a t ih =>
    intro d x hx
    rw [List.getLastD_cons]
    rcases List.mem_cons.mp hx with hxa | hxt
    · subst hxa
      cases t with
      | nil => simp [List.getLastD]
      | cons b t2 =>
        have hmem := getLastD_mem (b :: t2) x (by simp)
        exact (List.pairwise_cons.mp hs).1 _ hmem
    · exact ih (List.pairwise_cons.mp hs).2 _ x hxt

/-- C8 amended: the largest percentile of the queue's distribution is
`jobTimeMax` (the percentile list is nonempty and sorted); whenever it
exceeds `maxEstimate` the job is rejected with `errEstimateAboveMax` and the
queue is unchanged; otherwise, provided the queue is accepting jobs (not
killed, not on cooldown), the job is enqueued with its start time stamped and
the distribution wrapped with that start time is returned. -/
theorem c8_add_with_estimate (jq : JobHasSectorQueue) (j : JobHasSector)
    (now maxEstimate : Int) (hs : jq.percentiles.Pairwise (· ≤ ·))
    (hne : jq.percentiles ≠ []) :
    ((∀ x ∈ jq.percentiles, x ≤ jobTimeMax jq.percentiles) ∧
      jobTimeMax jq.percentiles ∈ jq.percentiles) ∧
    (jobTimeMax jq.percentiles > maxEstimate →
      callAddWithEstimate jq j now maxEstimate = (jq, .error .estimateAboveMax)) ∧
    (jobTimeMax jq.percentiles ≤ maxEstimate → jq.killed = false → jq.onCooldown = false →
      callAddWithEstimate jq j now maxEstimate =
        ({ jq with jobs := jq.jobs ++ [{ j with startTime := now }] },
         .ok { start := now, times := jq.percentiles })) := by
  refine ⟨⟨fun x hx => sorted_le_getLastD _ hs 0 x hx, getLastD_mem _ 0 hne⟩, ?_, ?_⟩
  · intro hgt
    unfold callAddWithEstimate
    rw [if_pos hgt]
  · intro hle hk hc
    unfold callAddWithEstimate
    rw [if_neg (by omega)]
    unfold jobGenericQueueAdd
    rw [hk, hc]
    rfl

/-- Witness for C8 at a concrete accepting queue: the sorted two-percentile
distribution `[3, 5]` with `maxEstimate = 10` enqueues the job and wraps the
distribution with start time 7. -/
theorem c8_add_with_estimate_witness :
    callAddWithEstimate
      { percentiles := [3, 5], jobs := [], killed := false, onCooldown := false }
      { sectors := [3], startTime := 0 } 7 10
    = ({ percentiles := [3, 5], jobs := [{ sectors := [3], startTime := 7 }],
         killed := false, onCooldown := false },
       .ok { start := 7, times := [3, 5] }) := by
  have h := c8_add_with_estimate
    { percentiles := [3, 5], jobs := [], killed := false, onCooldown := false }
    { sectors := [3], startTime := 0 } 7 10 (by decide) (by decide)
  exact h.2.2 (by decide) rfl rfl

/-- `hasSectorBatchSize` of the source. -/
def hasSectorBatchSize : Nat := 13

/-- Modelled from the spec: the generic queue popped by
`jobHasSectorQueue.callNext` is not under the source tree; per the spec it is
a per-kind FIFO, so its `callNext` pops the head. This is the batching loop
of the HasSector override, verbatim: keep popping until the batch holds
`hasSectorBatchSize` jobs or the queue is empty. Returns the batch and the
remaining queue. -/
def hsCallNextLoop (jobs : List JobHasSector) :
    List JobHasSector → List JobHasSector × List JobHasSector
  | [] => (jobs, [])
  | j :: rest =>
    if jobs.length ≥ hasSectorBatchSize then (jobs, j :: rest)
    else hsCallNextLoop (jobs ++ [j]) rest

/-- `jobHasSectorQueue.callNext`, verbatim: batch up to 13 jobs; return no
batch when the queue was empty. -/
def hsCallNext (q : List JobHasSector) :
    Option (List JobHasSector) × List JobHasSector :=
  let r := hsCallNextLoop [] q
  if r.1.length = 0 then (none, r.2) else (some r.1, r.2)

/-- One MDM response as `managedHasSector` consumes it: a per-instruction
error and the output bytes. -/
structure ProgramResponse where
  respErr : Option Nat
  output : List Nat
deriving Repr, DecidableEq

/-- Errors of `managedHasSector`: a failure of `managedExecuteProgram`, a
per-response output error, the response-count mismatch, and the Go panic of
indexing an empty `resp.Output` (unreachable for a well-formed host). -/
inductive HasSectorError where
  | execErr (e : Nat)
  | outputErr (e : Nat)
  | lengthMismatch
  | emptyOutput
deriving Repr, DecidableEq

/-- The response-parsing loop of `managedHasSector`, verbatim: fail on the
first response error, otherwise collect `resp.Output[0] == 1` per response. -/
def collectHasSectors : List ProgramResponse → Except HasSectorError (List Bool)
  | [] => .ok []
  | r :: rest =>
    match r.respErr with
    | some e => .error (.outputErr e)
    | none =>
      match r.output with
      | [] => .error .emptyOutput
      | b :: _ =>
        match collectHasSectors rest with
        | .error e => .error e
        | .ok bs => .ok ((b == 1) :: bs)

/-- The result-splitting loop at the end of `managedHasSector`, verbatim:
each job takes the prefix of the bit vector matching its root count. -/
def splitBySizes : List Nat → List Bool → List (List Bool)
  | [], _ => []
  | n :: ns, hs => hs.take n :: splitBySizes ns (hs.drop n)

/-- `jobHasSectorBatch.managedHasSector`, verbatim: build one program with a
HasSector instruction per root of every job in batch order, execute it
(`managedExecuteProgram` is external I/O, passed in as `exec`), parse the
responses, check the response count, and slice the bit vector back per job. -/
def managedHasSector (exec : List Nat → Except Nat (List ProgramResponse))
    (jobs : List JobHasSector) : Except HasSectorError (List (List Bool)) :=
  if jobs.isEmpty then .ok []
  else
    match exec ((jobs.map (·.sectors)).flatten) with
    | .error e => .error (.execErr e)
    | .ok responses =>
      match collectHasSectors responses with
      | .error e => .error e
      | .ok hasSectors =>
        if responses.length ≠ ((jobs.map (·.sectors)).flatten).length then .error .lengthMismatch
        else .ok (splitBySizes (jobs.map (·.sectors.length)) hasSectors)

/-- The per-job response of `jobHasSectorBatch.callExecute`. -/
structure JobHasSectorResponse where
  availables : List Bool
  errOut : Option HasSectorError
deriving Repr, DecidableEq

/-- The dispatch loop of `jobHasSectorBatch.callExecute`, verbatim: every job
receives the batch error, or its own slice `availables[i]` on success. -/
def hsBatchExecute (exec : List Nat → Except Nat (List ProgramResponse))
    (jobs : List JobHasSector) : List JobHasSectorResponse :=
  match managedHasSector exec jobs with
  | .error e => jobs.map fun _ => { availables := [], errOut := some e }
  | .ok avails =>
    (List.range jobs.length).map fun i => { availables := avails.getD i [], errOut := none }

/-- A host that answers HasSector probes functionally: one response per
instruction, output byte 1 exactly when the oracle holds the root. -/
def execWF (exec : List Nat → Except Nat (List ProgramResponse)) (oracle : Nat → Bool) : Prop :=
  ∀ rs, exec rs = .ok (rs.map fun r => { respErr := none, output := [if oracle r then 1 else 0] })

theorem hsCallNextLoop_eq (q : List JobHasSector) :
    ∀ jobs, jobs.length ≤ hasSectorBatchSize →
      hsCallNextLoop jobs q = (jobs ++ q.take (hasSectorBatchSize - jobs.length),
        q.drop (hasSectorBatchSize - jobs.length)) := by
  induction q with
  | nil =>
    intro jobs _
    simp [hsCallNextLoop]
  | cons j rest ih =>
    intro jobs hlen
    unfold hsCallNextLoop
    by_cases hge : jobs.length ≥ hasSectorBatchSize
    · have : hasSectorBatchSize - jobs.length = 0 := by omega
      simp [hge, this]
    · rw [if_neg hge]
      rw [ih (jobs ++ [j]) (by simp; omega)]
      have hsub : hasSectorBatchSize - jobs.length
          = (hasSectorBatchSize - (jobs ++ [j]).length) + 1 := by
        simp
        omega
      rw [hsub]
      simp [List.take_succ_cons, List.drop_succ_cons]

theorem collectHasSectors_wf (oracle : Nat → Bool) (rs : List Nat) :
    collectHasSectors (rs.map fun r => { respErr := none, output := [if oracle r then 1 else 0] })
      = .ok (rs.map oracle) := by
  induction rs with
  | nil => rfl
  | cons r rest ih =>
    simp only [List.map_cons, collectHasSectors, ih]
    cases h : oracle r <;> simp [h]

theorem splitBySizes_flatten (oracle : Nat → Bool) (jobs : List JobHasSector) :
    splitBySizes (jobs.map (·.sectors.length)) (((jobs.map (·.sectors)).flatten).map oracle)
      = jobs.map fun j => j.sectors.map oracle := by
  induction jobs with
  | nil => rfl
  | cons j rest ih =>
    simp only [List.map_cons, List.flatten_cons, List.map_append, splitBySizes]
    have hlen : (j.sectors.map oracle).length = j.sectors.length := by simp
    rw [← hlen, List.take_left, List.drop_left, ih]

theorem range_map_getD (l : List (List Bool)) :
    (List.range l.length).map (fun i => ({ availables := l.getD i [], errOut := none }
        : JobHasSectorResponse))
      = l.map fun a => { availables := a, errOut := none } := by
  induction l with
  | nil => rfl
  | cons a t ih =>
    rw [List.map_cons, List.length_cons, List.range_succ_eq_map, List.map_cons]
    congr 1
    rw [List.map_map, ← ih]
    apply List.map_congr_left
    intro i _
    rfl

/-- C9: HasSector batching preserves per-job semantics. For a host that
answers probes functionally through `oracle`: (i) `callNext` batches at most
13 jobs, the first 13 of the FIFO; (ii) executing a batch yields, for every
job, exactly the slice of the bit vector at that job's position — the answers
`j.sectors.map oracle`, which is also what `managedHasSector exec [j]`
returns when the job runs alone (instantiate the same equation at `[j]`);
(iii) the dispatch hands every job its own slice with no error; and (iv) for
any host and any batch-level failure, every job in the batch receives that
error. -/
theorem c9_batching_preserves_semantics
    (oracle : Nat → Bool) (exec : List Nat → Except Nat (List ProgramResponse))
    (hexec : execWF exec oracle) :
    (∀ q : List JobHasSector,
      (hsCallNextLoop [] q).1.length ≤ hasSectorBatchSize ∧
      (hsCallNextLoop [] q).1 = q.take hasSectorBatchSize) ∧
    (∀ jobs : List JobHasSector,
      managedHasSector exec jobs = .ok (jobs.map fun j => j.sectors.map oracle)) ∧
    (∀ jobs : List JobHasSector,
      hsBatchExecute exec jobs
        = jobs.map fun j => { availables := j.sectors.map oracle, errOut := none }) ∧
    (∀ (exec2 : List Nat → Except Nat (List ProgramResponse))
        (jobs : List JobHasSector) (e : HasSectorError),
      managedHasSector exec2 jobs = .error e →
      hsBatchExecute exec2 jobs = jobs.map fun _ => { availables := [], errOut := some e }) := by
  have hmhs : ∀ jobs : List JobHasSector,
      managedHasSector exec jobs = .ok (jobs.map fun j => j.sectors.map oracle) := by
    intro jobs
    unfold managedHasSector
    by_cases hemp : jobs.isEmpty
    · rw [if_pos hemp]
      rw [List.isEmpty_iff] at hemp
      simp [hemp]
    · rw [if_neg hemp]
      rw [hexec ((jobs.map (·.sectors)).flatten)]
      simp only []
      rw [collectHasSectors_wf]
      simp only []
      rw [if_neg (by rw [List.length_map]; simp)]
      rw [splitBySizes_flatten]
  refine ⟨?_, hmhs, ?_, ?_⟩
  · intro q
    have h := hsCallNextLoop_eq q [] (by simp [hasSectorBatchSize])
    rw [h]
    simp only [List.nil_append, Nat.sub_zero]
    exact ⟨by simpa using List.length_take_le hasSectorBatchSize q, rfl⟩
  · intro jobs
    unfold hsBatchExecute
    rw [hmhs jobs]
    simp only []
    have hlen : jobs.length = (jobs.map fun j => j.sectors.map oracle).length := by simp
    rw [hlen, range_map_getD, List.map_map]
    rfl
  · intro exec2 jobs e h
    unfold hsBatchExecute
    rw [h]

/-- The canonical well-formed host used by the C9 witness. -/
def oracleC9 : Nat → Bool := fun r => decide (r % 2 = 0)

/-- Host execution function of the C9 witness: answers per `oracleC9`. -/
def execC9 : List Nat → Except Nat (List ProgramResponse) :=
  fun rs => .ok (rs.map fun r => { respErr := none, output := [if oracleC9 r then 1 else 0] })

/-- Witness for C9: a concrete two-job batch over `execC9` is answered with
each job's own per-root bits, equal to what each job gets when run alone. -/
theorem c9_batching_preserves_semantics_witness :
    managedHasSector execC9
        [{ sectors := [2, 3], startTime := 0 }, { sectors := [4], startTime := 0 }]
      = .ok [[true, false], [true]] ∧
    managedHasSector execC9 [{ sectors := [2, 3], startTime := 0 }]
      = .ok [[true, false]] := by
  have h := c9_batching_preserves_semantics oracleC9 execC9 (fun rs => rfl)
  constructor
  · rw [h.2.1 [{ sectors := [2, 3], startTime := 0 }, { sectors := [4], startTime := 0 }]]
    rfl
  · rw [h.2.1 [{ sectors := [2, 3], startTime := 0 }]]
    rfl

/-! Merkle range-proof engine (the `merkletree` section of the source).

Hashes are modelled by the free algebra `MHash`: `leaf` stands for the
domain-separated leaf hash of a leaf's bytes, `node` for the internal hash of
two child hashes. The Go code is parametric in `hash.Hash`; any property of
this free model transfers to every instantiation. The `io.Reader` of leaf
bytes is modelled at leaf granularity as the list of its leaf-sized chunks
(all chunks full except possibly a short final one), which is exactly how
`SubtreeReader` and the verifier's read loop consume it. -/
inductive MHash where
  | leaf : List Nat → MHash
  | node : MHash → MHash → MHash
deriving Repr, DecidableEq

/-- Modelled from the spec: the `merkletree` package's `Stack` type is not
under the source tree (only its callers are). Per the spec's §4.1 model it
maintains subtree roots with their heights (head = most recently pushed),
merging equal-height neighbours into their parent, and its root joins the
remaining subtrees smallest-first. -/
abbrev MStack := List (MHash × Nat)

/-- Heights of the stack's entries. -/
def heights (s : MStack) : List Nat := s.map (·.2)

/-- `appendNodeAtHeight`: push a subtree root, merging equal-height
neighbours bottom-up. -/
def pushAtHeight : MStack → MHash → Nat → MStack
  | [], x, h => [(x, h)]
  | (m, g) :: rest, x, h =>
    if g = h then pushAtHeight rest (.node m x) (g + 1) else (x, h) :: (m, g) :: rest

/-- `AppendNode`: push a leaf hash at height 0. -/
def appendLeaf (s : MStack) (l : List Nat) : MStack :=
  pushAtHeight s (.leaf l) 0

/-- `Stack.Root`: join the remaining subtree roots from the top (smallest)
down; `none` is the nil root of an empty stack. -/
def stackRoot : MStack → Option MHash
  | [] => none
  | (m, _) :: rest => some (rest.foldl (fun acc e => MHash.node e.1 acc) m)

/-- The stack obtained by appending every leaf of a list in order. -/
def buildStack (ls : List (List Nat)) : MStack :=
  ls.foldl appendLeaf []

/-- The Merkle root of a sector given as its list of leaves, as the source
computes it (append every leaf, then collapse the stack). -/
def rootOfLeaves (ls : List (List Nat)) : Option MHash :=
  stackRoot (buildStack ls)

/-- `SubtreeReader.NextSubtreeRoot n`: hash up to `n` leaves from the stream
(fewer if the stream ends first), `io.EOF` (`none`) if no leaf was read;
`Skip` is the stream advance in the returned state. -/
def nextSubtreeRoot (st : List (List Nat)) (n : Nat) : Option (MHash × List (List Nat)) :=
  match stackRoot (buildStack (st.take n)) with
  | none => none
  | some r => some (r, st.drop n)

/-- The first loop of `BuildRangeProof`, verbatim: walk the bits of
`proofStart` from 63 down, emitting one subtree root per set bit while
`leafIndex < proofStart`; any hasher error (including EOF) aborts. The fuel
argument is the number of remaining bit positions. -/
def buildLeft : Nat → Nat → Nat → List (List Nat) →
    Option (List MHash × Nat × List (List Nat))
  | 0, _, li, st => some ([], li, st)
  | f + 1, ps, li, st =>
    if li < ps then
      if Nat.testBit ps f then
        match nextSubtreeRoot st (2 ^ f) with
        | none => none
        | some (r, st2) =>
          match buildLeft f ps (li + 2 ^ f) st2 with
          | none => none
          | some (proof, li2, st3) => some (r :: proof, li2, st3)
      else buildLeft f ps li st
    else some ([], li, st)

/-- The second loop of `BuildRangeProof`, verbatim: walk the bits of
`proofEnd - 1` from 0 up to 62 (`subtreeSize < 1<<63`), emitting one subtree
root per clear bit and stopping at EOF. -/
def buildRight (em : Nat) : Nat → Nat → List (List Nat) → List MHash
  | _, 0, _ => []
  | i, f + 1, st =>
    if Nat.testBit em i then buildRight em (i + 1) f st
    else
      match nextSubtreeRoot st (2 ^ i) with
      | none => []
      | some (r, st2) => r :: buildRight em (i + 1) f st2

/-- `BuildRangeProof`, verbatim: left proof hashes, `Skip` over the proof
range, right proof hashes. The illegal-range panic is the `none` case. -/
def BuildRangeProof (a b : Nat) (st : List (List Nat)) : Option (List MHash) :=
  if b ≤ a then none
  else
    match buildLeft 64 a 0 st with
    | none => none
    | some (left, _, st2) =>
      some (left ++ buildRight (b - 1) 0 63 (st2.drop (b - a)))

/-- The first loop of `VerifyReaderRangeProof`, verbatim: for `i` from 63
down to 0 while proof hashes remain, push one proof hash at height `i` for
every set bit of `proofStart`. -/
def verifyLeft : Nat → Nat → List MHash → MStack → List MHash × MStack
  | 0, _, proof, s => (proof, s)
  | f + 1, ps, proof, s =>
    match proof with
    | [] => ([], s)
    | p :: rest =>
      if Nat.testBit ps f then verifyLeft f ps rest (pushAtHeight s p f)
      else verifyLeft f ps (p :: rest) s

/-- The leaf loop of `VerifyReaderRangeProof`, verbatim at leaf granularity:
read and push `n` leaves; running out of data is an error unless it happens
at the very last leaf (the short-final-leaf break). -/
def verifyLeaves : Nat → List (List Nat) → MStack → Option MStack
  | 0, _, s => some s
  | n + 1, [], s => if n = 0 then some s else none
  | n + 1, l :: r, s => verifyLeaves n r (appendLeaf s l)

/-- The last loop of `VerifyReaderRangeProof`, verbatim: for `i` from 0 up
while proof hashes remain, push one proof hash at height `i` for every set
bit of `0 - uint64(proofEnd)`. Past `i = 63` the Go loop's `1 << i` is 0 and
it can never consume another hash (it spins forever); a proof still
unconsumed at fuel 0 therefore never verifies, modelled as `none`. -/
def verifyRight (em : Nat) : Nat → Nat → List MHash → MStack → Option MStack
  | _, 0, proof, s => if proof.isEmpty then some s else none
  | i, f + 1, proof, s =>
    match proof with
    | [] => some s
    | p :: rest =>
      if Nat.testBit em i then verifyRight em (i + 1) f rest (pushAtHeight s p i)
      else verifyRight em (i + 1) f (p :: rest) s

/-- `VerifyReaderRangeProof`, verbatim: rebuild the stack from the left proof
hashes, the leaf hashes of the reader, and the right proof hashes, then
compare the collapsed root (`bytes.Equal` of the nil root with a real root
is false, so an empty stack never matches). The illegal-range panic and the
insufficient-leaf-data error are the `none` cases. -/
def VerifyReaderRangeProof (r : List (List Nat)) (a b : Nat) (proof : List MHash)
    (root : MHash) : Option Bool :=
  if b ≤ a then none
  else
    match verifyLeaves (b - a) r (verifyLeft 64 a proof []).2 with
    | none => none
    | some s2 =>
      match verifyRight (two64 - b) 0 64 (verifyLeft 64 a proof []).1 s2 with
      | none => none
      | some s3 => some (decide (stackRoot s3 = some root))

theorem pushAtHeight_cons_of_lt (S : MStack) (x : MHash) (h : Nat)
    (hlt : ∀ g ∈ heights S, h < g) : pushAtHeight S x h = (x, h) :: S := by
  cases S with
  | nil => rfl
  | cons e rest =>
    obtain ⟨m, g⟩ := e
    have hg : g ≠ h := by
      have := hlt g (by simp [heights])
      omega
    simp [pushAtHeight, hg]

theorem heights_pushAtHeight (S : MStack) (x : MHash) (h k : Nat)
    (hk : ∀ g ∈ heights S, k ≤ g) (hkh : k ≤ h) :
    ∀ g ∈ heights (pushAtHeight S x h), k ≤ g := by
  induction S generalizing x h with
  | nil =>
    intro g hg
    simp [pushAtHeight, heights] at hg
    omega
  | cons e rest ih =>
    obtain ⟨m, g0⟩ := e
    by_cases hgh : g0 = h
    · subst hgh
      simp only [pushAtHeight, if_pos rfl]
      refine ih (.node m x) (g0 + 1) ?_ (by omega)
      intro g hg
      exact hk g (by simp [heights]; right; simpa [heights] using hg)
    · simp only [pushAtHeight, if_neg hgh]
      intro g hg
      simp only [heights, List.map_cons, List.mem_cons] at hg
      rcases hg with h1 | h2
      · omega
      · exact hk g (by simpa [heights] using h2)

theorem stackRoot_pushAtHeight (S : MStack) (x : MHash) (h : Nat) :
    stackRoot (pushAtHeight S x h) = stackRoot ((x, h) :: S) := by
  induction S generalizing x h with
  | nil => rfl
  | cons e rest ih =>
    obtain ⟨m, g⟩ := e
    by_cases hg : g = h
    · subst hg
      simp only [pushAtHeight, eq_self_iff_true, if_true]
      rw [ih]
      simp [stackRoot]
    · simp [pushAtHeight, hg]

/-- Root of a full binary subtree of `2^m` leaves, as the hasher computes
it. -/
def blockRootVal : Nat → List (List Nat) → MHash
  | 0, bl => .leaf (bl.headD [])
  | m + 1, bl => .node (blockRootVal m (bl.take (2 ^ m))) (blockRootVal m (bl.drop (2 ^ m)))

theorem pushBlock (m : Nat) (S : MStack) (bl : List (List Nat))
    (hlen : bl.length = 2 ^ m) (hh : ∀ g ∈ heights S, m ≤ g) :
    List.foldl appendLeaf S bl = pushAtHeight S (blockRootVal m bl) m := by
  induction m generalizing S bl with
  | zero =>
    obtain ⟨l, rfl⟩ := List.length_eq_one.mp (by simpa using hlen)
    rfl
  | succ m ih =>
    have hp : 2 ^ (m + 1) = 2 ^ m + 2 ^ m := by
      rw [pow_succ]
      ring
    have hsplit : bl.take (2 ^ m) ++ bl.drop (2 ^ m) = bl := List.take_append_drop _ _
    have hlen1 : (bl.take (2 ^ m)).length = 2 ^ m := by
      rw [List.length_take]
      omega
    have hlen2 : (bl.drop (2 ^ m)).length = 2 ^ m := by
      rw [List.length_drop]
      omega
    have hhm : ∀ g ∈ heights S, m ≤ g := fun g hg => le_trans (Nat.le_succ m) (hh g hg)
    conv_lhs => rw [← hsplit]
    rw [List.foldl_append]
    rw [ih S (bl.take (2 ^ m)) hlen1 hhm]
    rw [pushAtHeight_cons_of_lt S _ m (fun g hg => lt_of_lt_of_le (Nat.lt_succ_self m) (hh g hg))]
    rw [ih ((blockRootVal m (bl.take (2 ^ m)), m) :: S) (bl.drop (2 ^ m)) hlen2 ?hh2]
    case hh2 =>
      intro g hg
      simp only [heights, List.map_cons, List.mem_cons] at hg
      rcases hg with h1 | h2
      · omega
      · exact hhm g (by simpa [heights] using h2)
    simp [pushAtHeight, blockRootVal]

theorem buildStack_block (m : Nat) (bl : List (List Nat)) (hlen : bl.length = 2 ^ m) :
    buildStack bl = [(blockRootVal m bl, m)] := by
  unfold buildStack
  rw [pushBlock m [] bl hlen (by simp [heights])]
  rfl

theorem heights_div_mul (m : Nat) (ls : List (List Nat)) :
    ∀ q, 2 ^ m * q ≤ ls.length →
      ∀ g ∈ heights (buildStack (ls.take (2 ^ m * q))), m ≤ g := by
  intro q
  induction q with
  | zero => simp [buildStack, heights]
  | succ q ih =>
    intro hle g hg
    have hc : 2 ^ m * (q + 1) = 2 ^ m * q + 2 ^ m := by ring
    rw [hc, List.take_add] at hg
    have hsum : 2 ^ m * q + 2 ^ m ≤ ls.length := by
      calc 2 ^ m * q + 2 ^ m = 2 ^ m * (q + 1) := by ring
        _ ≤ ls.length := hle
    have hq : 2 ^ m * q ≤ ls.length := le_trans (Nat.le_add_right _ _) hsum
    have hblock : ((ls.drop (2 ^ m * q)).take (2 ^ m)).length = 2 ^ m := by
      rw [List.length_take, List.length_drop]
      exact Nat.min_eq_left (Nat.le_sub_of_add_le (by rw [Nat.add_comm]; exact hsum))
    rw [show buildStack (ls.take (2 ^ m * q) ++ (ls.drop (2 ^ m * q)).take (2 ^ m))
        = List.foldl appendLeaf (buildStack (ls.take (2 ^ m * q)))
            ((ls.drop (2 ^ m * q)).take (2 ^ m)) by
      unfold buildStack
      rw [List.foldl_append]] at hg
    rw [pushBlock m _ _ hblock (ih hq)] at hg
    exact heights_pushAtHeight _ _ m m (ih hq) le_rfl g hg

theorem heights_div (m c : Nat) (ls : List (List Nat)) (hdvd : 2 ^ m ∣ c)
    (hle : c ≤ ls.length) :
    ∀ g ∈ heights (buildStack (ls.take c)), m ≤ g := by
  obtain ⟨q, rfl⟩ := hdvd
  exact heights_div_mul m ls q hle

theorem foldl_split (i : Nat) (rest : List (List Nat)) (S : MStack)
    (hlen : rest.length < 2 ^ i) (hh : ∀ g ∈ heights S, i ≤ g) :
    List.foldl appendLeaf S rest = buildStack rest ++ S := by
  induction i generalizing rest S with
  | zero =>
    have : rest = [] := List.length_eq_zero.mp (by omega)
    subst this
    rfl
  | succ i ih =>
    by_cases hsmall : rest.length < 2 ^ i
    · exact ih rest S hsmall (fun g hg => le_trans (Nat.le_succ i) (hh g hg))
    · have hp : 2 ^ (i + 1) = 2 ^ i + 2 ^ i := by
        rw [pow_succ]
        ring
      have hsplit : rest.take (2 ^ i) ++ rest.drop (2 ^ i) = rest := List.take_append_drop _ _
      have hlen1 : (rest.take (2 ^ i)).length = 2 ^ i := by
        rw [List.length_take]
        omega
      have hlen2 : (rest.drop (2 ^ i)).length < 2 ^ i := by
        rw [List.length_drop]
        omega
      have hhi : ∀ g ∈ heights S, i ≤ g := fun g hg => le_trans (Nat.le_succ i) (hh g hg)
      have hcons : ∀ g ∈ heights ((blockRootVal i (rest.take (2 ^ i)), i) :: S), i ≤ g := by
        intro g hg
        simp only [heights, List.map_cons, List.mem_cons] at hg
        rcases hg with h1 | h2
        · omega
        · exact hhi g (by simpa [heights] using h2)
      conv_lhs => rw [← hsplit]
      rw [List.foldl_append, pushBlock i S _ hlen1 hhi,
        pushAtHeight_cons_of_lt S _ i (fun g hg => lt_of_lt_of_le (Nat.lt_succ_self i) (hh g hg)),
        ih _ _ hlen2 hcons]
      conv_rhs => rw [← hsplit]
      rw [show buildStack (rest.take (2 ^ i) ++ rest.drop (2 ^ i))
          = List.foldl appendLeaf (buildStack (rest.take (2 ^ i))) (rest.drop (2 ^ i)) by
        unfold buildStack
        rw [List.foldl_append]]
      rw [buildStack_block i _ hlen1]
      rw [ih (rest.drop (2 ^ i)) [(blockRootVal i (rest.take (2 ^ i)), i)] hlen2
        (by simp [heights])]
      simp

theorem stackRoot_append (E S : MStack) (x : MHash) (h : Nat)
    (hE : stackRoot E = some x) : stackRoot (E ++ S) = stackRoot ((x, h) :: S) := by
  cases E with
  | nil => exact absurd hE (by simp [stackRoot])
  | cons e rest =>
    obtain ⟨m, g⟩ := e
    simp only [stackRoot, Option.some_inj] at hE
    simp only [List.cons_append, stackRoot, List.foldl_append, hE]

theorem nextSubtreeRoot_full (st : List (List Nat)) (m : Nat) (hle : 2 ^ m ≤ st.length) :
    nextSubtreeRoot st (2 ^ m)
      = some (blockRootVal m (st.take (2 ^ m)), st.drop (2 ^ m)) := by
  unfold nextSubtreeRoot
  have hlen : (st.take (2 ^ m)).length = 2 ^ m := by
    rw [List.length_take]
    omega
  rw [buildStack_block m _ hlen]
  rfl

theorem pushAtHeight_ne_nil (S : MStack) (x : MHash) (h : Nat) :
    pushAtHeight S x h ≠ [] := by
  induction S generalizing x h with
  | nil => simp [pushAtHeight]
  | cons e rest ih =>
    obtain ⟨m, g⟩ := e
    by_cases hg : g = h
    · subst hg
      simpa [pushAtHeight] using ih (.node m x) (g + 1)
    · simp [pushAtHeight, hg]

theorem buildStack_ne_nil (ls : List (List Nat)) (h : ls ≠ []) :
    buildStack ls ≠ [] := by
  suffices hgen : ∀ S : MStack, (S ≠ [] ∨ ls ≠ []) → List.foldl appendLeaf S ls ≠ [] by
    exact hgen [] (Or.inr h)
  clear h
  induction ls with
  | nil =>
    intro S hS
    rcases hS with h1 | h2
    · simpa using h1
    · exact absurd rfl h2
  | cons l rest ih =>
    intro S _
    rw [List.foldl_cons]
    exact ih (appendLeaf S l) (Or.inl (pushAtHeight_ne_nil S (.leaf l) 0))

theorem stackRoot_isSome (s : MStack) (h : s ≠ []) : ∃ x, stackRoot s = some x := by
  cases s with
  | nil => exact absurd rfl h
  | cons e rest => exact ⟨_, rfl⟩

theorem verifyLeft_skip (f : Nat) (ps : Nat) (hbits : ps % 2 ^ f = 0) :
    ∀ (proof : List MHash) (S : MStack), verifyLeft f ps proof S = (proof, S) := by
  induction f with
  | zero =>
    intro proof S
    rfl
  | succ f ih =>
    intro proof S
    have hdvd : 2 ^ f ∣ ps :=
      dvd_trans (pow_dvd_pow 2 (Nat.le_succ f)) (Nat.dvd_of_mod_eq_zero hbits)
    have hbit : Nat.testBit ps f = false := by
      have h0 := Nat.testBit_mod_two_pow ps (f + 1) f
      rw [hbits] at h0
      simpa using h0.symm
    have hbits' : ps % 2 ^ f = 0 := Nat.mod_eq_zero_of_dvd hdvd
    cases proof with
    | nil => rfl
    | cons p rest =>
      simp only [verifyLeft, hbit, Bool.false_eq_true, if_false]
      exact ih hbits' _ _

theorem left_joint (ls : List (List Nat)) (ps : Nat) (hps : ps ≤ ls.length) :
    ∀ f : Nat, ∃ prf : List MHash,
      buildLeft f ps (2 ^ f * (ps / 2 ^ f)) (ls.drop (2 ^ f * (ps / 2 ^ f)))
        = some (prf, ps, ls.drop ps) ∧
      (2 ^ f * (ps / 2 ^ f) ≠ ps → prf ≠ []) ∧
      ∀ rest : List MHash,
        verifyLeft f ps (prf ++ rest) (buildStack (ls.take (2 ^ f * (ps / 2 ^ f))))
          = (rest, buildStack (ls.take ps)) := by
  intro f
  induction f with
  | zero =>
    have e : 2 ^ 0 * (ps / 2 ^ 0) = ps := by simp
    refine ⟨[], ?_, ?_, ?_⟩
    · rw [e]
      rfl
    · intro hcon
      exact absurd e hcon
    · intro rest
      rw [e]
      rfl
  | succ f ih =>
    obtain ⟨prf, hbuild, hnonnil, hverify⟩ := ih
    have e1 : (2 : Nat) ^ (f + 1) = 2 ^ f * 2 := pow_succ 2 f
    have e2 : ps / 2 ^ (f + 1) = ps / 2 ^ f / 2 := by
      rw [e1]
      exact (Nat.div_div_eq_div_mul ps (2 ^ f) 2).symm
    have dd := Nat.div_add_mod (ps / 2 ^ f) 2
    have hbt : Nat.testBit ps f = decide (ps / 2 ^ f % 2 = 1) := Nat.testBit_to_div_mod
    have h2 : 2 ^ f * (ps / 2 ^ f) ≤ ps := by
      calc 2 ^ f * (ps / 2 ^ f) = ps / 2 ^ f * 2 ^ f := by ring
        _ ≤ ps := Nat.div_mul_le_self ps (2 ^ f)
    have hdvd1 : 2 ^ f ∣ 2 ^ (f + 1) * (ps / 2 ^ (f + 1)) := by
      refine ⟨2 * (ps / 2 ^ (f + 1)), ?_⟩
      rw [e1]
      ring
    by_cases hcase : ps / 2 ^ f % 2 = 1
    · -- bit f of ps is set
      have hbitT : Nat.testBit ps f = true := by
        rw [hbt, hcase]
        simp
      have h1 : 2 ^ (f + 1) * (ps / 2 ^ (f + 1)) + 2 ^ f = 2 ^ f * (ps / 2 ^ f) := by
        rw [e2, e1]
        calc 2 ^ f * 2 * (ps / 2 ^ f / 2) + 2 ^ f
            = 2 ^ f * (2 * (ps / 2 ^ f / 2) + 1) := by ring
          _ = 2 ^ f * (ps / 2 ^ f) := by
              rw [show 2 * (ps / 2 ^ f / 2) + 1 = ps / 2 ^ f by omega]
      have hlt : 2 ^ (f + 1) * (ps / 2 ^ (f + 1)) < ps := by
        have hpow : 0 < 2 ^ f := Nat.pos_pow_of_pos f (by norm_num)
        omega
      have hroom : 2 ^ f ≤ (ls.drop (2 ^ (f + 1) * (ps / 2 ^ (f + 1)))).length := by
        rw [List.length_drop]
        omega
      have hblock : (ls.drop (2 ^ (f + 1) * (ps / 2 ^ (f + 1)))).drop (2 ^ f)
          = ls.drop (2 ^ f * (ps / 2 ^ f)) := by
        rw [List.drop_drop, h1]
      refine ⟨blockRootVal f ((ls.drop (2 ^ (f + 1) * (ps / 2 ^ (f + 1)))).take (2 ^ f)) :: prf,
        ?_, ?_, ?_⟩
      · simp only [buildLeft, if_pos hlt, hbitT, if_true]
        rw [nextSubtreeRoot_full _ f hroom]
        simp only []
        rw [hblock, h1, hbuild]
      · intro _
        simp
      · intro rest
        rw [List.cons_append]
        simp only [verifyLeft, hbitT, if_true]
        have hpush : pushAtHeight (buildStack (ls.take (2 ^ (f + 1) * (ps / 2 ^ (f + 1)))))
            (blockRootVal f ((ls.drop (2 ^ (f + 1) * (ps / 2 ^ (f + 1)))).take (2 ^ f))) f
            = buildStack (ls.take (2 ^ f * (ps / 2 ^ f))) := by
          have hfull : ((ls.drop (2 ^ (f + 1) * (ps / 2 ^ (f + 1)))).take (2 ^ f)).length
              = 2 ^ f := by
            rw [List.length_take, List.length_drop]
            omega
          have hhS : ∀ g ∈ heights (buildStack (ls.take (2 ^ (f + 1) * (ps / 2 ^ (f + 1))))),
              f ≤ g :=
            heights_div f _ ls hdvd1 (by omega)
          rw [← pushBlock f _ _ hfull hhS]
          rw [show buildStack (ls.take (2 ^ f * (ps / 2 ^ f)))
              = buildStack (ls.take (2 ^ (f + 1) * (ps / 2 ^ (f + 1))
                  + 2 ^ f)) by rw [h1]]
          rw [List.take_add]
          unfold buildStack
          rw [List.foldl_append]
        rw [hpush]
        exact hverify rest
    · -- bit f of ps is clear
      have hmod : ps / 2 ^ f % 2 = 0 := by omega
      have hbitF : Nat.testBit ps f = false := by
        rw [hbt, hmod]
        simp
      have h1 : 2 ^ (f + 1) * (ps / 2 ^ (f + 1)) = 2 ^ f * (ps / 2 ^ f) := by
        rw [e2, e1]
        calc 2 ^ f * 2 * (ps / 2 ^ f / 2) = 2 ^ f * (2 * (ps / 2 ^ f / 2)) := by ring
          _ = 2 ^ f * (ps / 2 ^ f) := by
              rw [show 2 * (ps / 2 ^ f / 2) = ps / 2 ^ f by omega]
      by_cases heq : 2 ^ (f + 1) * (ps / 2 ^ (f + 1)) = ps
      · -- early exit: leafIndex already equals proofStart
        have hzero : ps % 2 ^ (f + 1) = 0 := by
          have hdm := Nat.div_add_mod ps (2 ^ (f + 1))
          omega
        refine ⟨[], ?_, ?_, ?_⟩
        · rw [heq]
          simp only [buildLeft, if_neg (lt_irrefl ps)]
        · intro hcon
          exact absurd heq hcon
        · intro rest
          rw [heq, List.nil_append]
          exact verifyLeft_skip (f + 1) ps hzero rest _
      · -- recurse on the next bit with the same leafIndex
        have hlt' : 2 ^ (f + 1) * (ps / 2 ^ (f + 1)) < ps :=
          lt_of_le_of_ne (h1 ▸ h2) heq
        have hne0 : 2 ^ f * (ps / 2 ^ f) ≠ ps := by
          rw [← h1]
          exact heq
        refine ⟨prf, ?_, ?_, ?_⟩
        · simp only [buildLeft, if_pos hlt', hbitF, Bool.false_eq_true, if_false]
          rw [h1]
          exact hbuild
        · intro _
          exact hnonnil hne0
        · intro rest
          obtain ⟨p, t, rfl⟩ := List.exists_cons_of_ne_nil (hnonnil hne0)
          rw [List.cons_append]
          simp only [verifyLeft, hbitF, Bool.false_eq_true, if_false]
          rw [← List.cons_append, h1]
          exact hverify rest

theorem nextSubtreeRoot_nil (n : Nat) : nextSubtreeRoot [] n = none := by
  unfold nextSubtreeRoot
  rw [List.take_nil]
  rfl

theorem buildRight_empty (em : Nat) : ∀ i f, buildRight em i f [] = [] := by
  intro i f
  induction f generalizing i with
  | zero => rfl
  | succ f ih =>
    simp only [buildRight]
    by_cases hb : Nat.testBit em i = true
    · rw [if_pos hb]
      exact ih (i + 1)
    · rw [if_neg hb, nextSubtreeRoot_nil]

theorem verifyLeaves_exact (r : List (List Nat)) :
    ∀ S : MStack, verifyLeaves r.length r S = some (List.foldl appendLeaf S r) := by
  induction r with
  | nil =>
    intro S
    rfl
  | cons l rest ih =>
    intro S
    simp only [List.length_cons, verifyLeaves, List.foldl_cons]
    exact ih (appendLeaf S l)

theorem right_joint (ls : List (List Nat)) (b : Nat) (hb1 : 1 ≤ b) (hbT : b ≤ ls.length)
    (hT : ls.length < 2 ^ 63) :
    ∀ fb i, i + fb = 63 →
      ∃ s3, verifyRight (two64 - b) i (fb + 1)
          (buildRight (b - 1) i fb (ls.drop (2 ^ i * ((b - 1) / 2 ^ i + 1))))
          (buildStack (ls.take (2 ^ i * ((b - 1) / 2 ^ i + 1))))
        = some s3 ∧ stackRoot s3 = stackRoot (buildStack ls) := by
  intro fb
  induction fb with
  | zero =>
    intro i hif
    have hi : i = 63 := by omega
    subst hi
    have hcge : 2 ^ 63 ≤ 2 ^ 63 * ((b - 1) / 2 ^ 63 + 1) :=
      Nat.le_mul_of_pos_right _ (by omega)
    have hdrop : ls.drop (2 ^ 63 * ((b - 1) / 2 ^ 63 + 1)) = [] :=
      List.drop_eq_nil_of_le (by omega)
    have htake : ls.take (2 ^ 63 * ((b - 1) / 2 ^ 63 + 1)) = ls :=
      List.take_of_length_le (by omega)
    rw [hdrop, htake]
    exact ⟨buildStack ls, rfl, rfl⟩
  | succ fb ih =>
    intro i hif
    have hi64 : i < 64 := by omega
    have hblt : b - 1 < 2 ^ 64 := by omega
    have hbitv : Nat.testBit (two64 - b) i = !Nat.testBit (b - 1) i := by
      have hbb : two64 - b = 2 ^ 64 - (b - 1 + 1) := by
        unfold two64
        omega
      rw [hbb, Nat.testBit_two_pow_sub_succ hblt i]
      simp [hi64]
    have e1 : (2 : Nat) ^ (i + 1) = 2 ^ i * 2 := pow_succ 2 i
    have e2 : (b - 1) / 2 ^ (i + 1) = (b - 1) / 2 ^ i / 2 := by
      rw [e1]
      exact (Nat.div_div_eq_div_mul (b - 1) (2 ^ i) 2).symm
    have dd := Nat.div_add_mod ((b - 1) / 2 ^ i) 2
    have hbt : Nat.testBit (b - 1) i = decide ((b - 1) / 2 ^ i % 2 = 1) :=
      Nat.testBit_to_div_mod
    have hdm := Nat.div_add_mod (b - 1) (2 ^ i)
    have hmlt : (b - 1) % 2 ^ i < 2 ^ i := Nat.mod_lt _ (by positivity)
    have hce : 2 ^ i * ((b - 1) / 2 ^ i + 1) = 2 ^ i * ((b - 1) / 2 ^ i) + 2 ^ i := by
      ring
    have hcgeb : b ≤ 2 ^ i * ((b - 1) / 2 ^ i + 1) := by omega
    have hdvd : 2 ^ i ∣ 2 ^ i * ((b - 1) / 2 ^ i + 1) := ⟨_, rfl⟩
    by_cases hcase : (b - 1) / 2 ^ i % 2 = 1
    · -- bit i of proofEnd-1 set: both loops skip this height
      have hbitT : Nat.testBit (b - 1) i = true := by
        rw [hbt, hcase]
        simp
      have hbitVF : Nat.testBit (two64 - b) i = false := by
        rw [hbitv, hbitT]
        rfl
      have hceq : 2 ^ (i + 1) * ((b - 1) / 2 ^ (i + 1) + 1)
          = 2 ^ i * ((b - 1) / 2 ^ i + 1) := by
        rw [e2, e1]
        calc 2 ^ i * 2 * ((b - 1) / 2 ^ i / 2 + 1)
            = 2 ^ i * (2 * ((b - 1) / 2 ^ i / 2) + 2) := by ring
          _ = 2 ^ i * ((b - 1) / 2 ^ i + 1) := by
              rw [show 2 * ((b - 1) / 2 ^ i / 2) + 2 = (b - 1) / 2 ^ i + 1 by omega]
      have hbuildstep : buildRight (b - 1) i (fb + 1) (ls.drop (2 ^ i * ((b - 1) / 2 ^ i + 1)))
          = buildRight (b - 1) (i + 1) fb (ls.drop (2 ^ i * ((b - 1) / 2 ^ i + 1))) := by
        simp only [buildRight, hbitT, if_true]
      have hverifystep : ∀ (proof : List MHash) (S : MStack),
          verifyRight (two64 - b) i (fb + 1 + 1) proof S
            = verifyRight (two64 - b) (i + 1) (fb + 1) proof S := by
        intro proof S
        cases proof with
        | nil => rfl
        | cons p rest =>
          simp only [verifyRight, hbitVF, Bool.false_eq_true, if_false]
      rw [hbuildstep, hverifystep]
      rw [show ls.drop (2 ^ i * ((b - 1) / 2 ^ i + 1))
          = ls.drop (2 ^ (i + 1) * ((b - 1) / 2 ^ (i + 1) + 1)) by rw [hceq]]
      rw [show ls.take (2 ^ i * ((b - 1) / 2 ^ i + 1))
          = ls.take (2 ^ (i + 1) * ((b - 1) / 2 ^ (i + 1) + 1)) by rw [hceq]]
      exact ih (i + 1) (by omega)
    · -- bit i of proofEnd-1 clear: this height carries a right-side subtree
      have hmod0 : (b - 1) / 2 ^ i % 2 = 0 := by omega
      have hbitF : Nat.testBit (b - 1) i = false := by
        rw [hbt, hmod0]
        simp
      have hbitVT : Nat.testBit (two64 - b) i = true := by
        rw [hbitv, hbitF]
        rfl
      have hsum : 2 ^ i * ((b - 1) / 2 ^ i + 1) + 2 ^ i
          = 2 ^ (i + 1) * ((b - 1) / 2 ^ (i + 1) + 1) := by
        rw [e2, e1]
        calc 2 ^ i * ((b - 1) / 2 ^ i + 1) + 2 ^ i
            = 2 ^ i * ((b - 1) / 2 ^ i + 2) := by ring
          _ = 2 ^ i * (2 * ((b - 1) / 2 ^ i / 2) + 2) := by
              rw [show (b - 1) / 2 ^ i + 2 = 2 * ((b - 1) / 2 ^ i / 2) + 2 by omega]
          _ = 2 ^ i * 2 * ((b - 1) / 2 ^ i / 2 + 1) := by ring
      have hSheights : ∀ g ∈ heights (buildStack (ls.take (2 ^ i * ((b - 1) / 2 ^ i + 1)))),
          i ≤ g → True := fun _ _ _ => trivial
      by_cases hend : ls.length ≤ 2 ^ i * ((b - 1) / 2 ^ i + 1)
      · -- the hasher is already exhausted: EOF ends the proof
        have hdrop : ls.drop (2 ^ i * ((b - 1) / 2 ^ i + 1)) = [] :=
          List.drop_eq_nil_of_le hend
        have htake : ls.take (2 ^ i * ((b - 1) / 2 ^ i + 1)) = ls :=
          List.take_of_length_le hend
        rw [hdrop, htake]
        have hbr : buildRight (b - 1) i (fb + 1) ([] : List (List Nat)) = [] :=
          buildRight_empty (b - 1) i (fb + 1)
        rw [hbr]
        exact ⟨buildStack ls, rfl, rfl⟩
      · push_neg at hend
        have hheights : ∀ g ∈ heights (buildStack (ls.take (2 ^ i * ((b - 1) / 2 ^ i + 1)))),
            i ≤ g := heights_div i _ ls hdvd (by omega)
        by_cases hfull : 2 ^ i * ((b - 1) / 2 ^ i + 1) + 2 ^ i ≤ ls.length
        · -- a full subtree of 2^i leaves remains
          have hroom : 2 ^ i ≤ (ls.drop (2 ^ i * ((b - 1) / 2 ^ i + 1))).length := by
            rw [List.length_drop]
            omega
          have hblock : ((ls.drop (2 ^ i * ((b - 1) / 2 ^ i + 1))).take (2 ^ i)).length
              = 2 ^ i := by
            rw [List.length_take, List.length_drop]
            omega
          have hbuildstep : buildRight (b - 1) i (fb + 1)
              (ls.drop (2 ^ i * ((b - 1) / 2 ^ i + 1)))
              = blockRootVal i ((ls.drop (2 ^ i * ((b - 1) / 2 ^ i + 1))).take (2 ^ i))
                :: buildRight (b - 1) (i + 1) fb
                  (ls.drop (2 ^ (i + 1) * ((b - 1) / 2 ^ (i + 1) + 1))) := by
            simp only [buildRight, hbitF, Bool.false_eq_true, if_false]
            rw [nextSubtreeRoot_full _ i hroom]
            simp only []
            rw [List.drop_drop, hsum]
          have hpush : pushAtHeight (buildStack (ls.take (2 ^ i * ((b - 1) / 2 ^ i + 1))))
              (blockRootVal i ((ls.drop (2 ^ i * ((b - 1) / 2 ^ i + 1))).take (2 ^ i))) i
              = buildStack (ls.take (2 ^ (i + 1) * ((b - 1) / 2 ^ (i + 1) + 1))) := by
            rw [← pushBlock i _ _ hblock hheights]
            rw [show ls.take (2 ^ (i + 1) * ((b - 1) / 2 ^ (i + 1) + 1))
                = ls.take (2 ^ i * ((b - 1) / 2 ^ i + 1) + 2 ^ i) by rw [hsum]]
            rw [List.take_add]
            unfold buildStack
            rw [List.foldl_append]
          rw [hbuildstep]
          obtain ⟨s3, hver, hroot⟩ := ih (i + 1) (by omega)
          refine ⟨s3, ?_, hroot⟩
          simp only [verifyRight, hbitVT, if_true]
          rw [hpush]
          exact hver
        · -- a short final subtree: the hasher returns the root of what is left
          push_neg at hfull
          have hlenrest : (ls.drop (2 ^ i * ((b - 1) / 2 ^ i + 1))).length < 2 ^ i := by
            rw [List.length_drop]
            omega
          have hrestne : ls.drop (2 ^ i * ((b - 1) / 2 ^ i + 1)) ≠ [] := by
            apply List.ne_nil_of_length_pos
            rw [List.length_drop]
            omega
          obtain ⟨rp, hrp⟩ := stackRoot_isSome _ (buildStack_ne_nil _ hrestne)
          have hnsr : nextSubtreeRoot (ls.drop (2 ^ i * ((b - 1) / 2 ^ i + 1))) (2 ^ i)
              = some (rp, []) := by
            unfold nextSubtreeRoot
            rw [List.take_of_length_le (le_of_lt hlenrest), hrp,
              List.drop_eq_nil_of_le (le_of_lt hlenrest)]
          have hbuildstep : buildRight (b - 1) i (fb + 1)
              (ls.drop (2 ^ i * ((b - 1) / 2 ^ i + 1))) = [rp] := by
            simp only [buildRight, hbitF, Bool.false_eq_true, if_false]
            rw [hnsr]
            simp only []
            rw [buildRight_empty]
          rw [hbuildstep]
          refine ⟨pushAtHeight (buildStack (ls.take (2 ^ i * ((b - 1) / 2 ^ i + 1)))) rp i,
            ?_, ?_⟩
          · simp only [verifyRight, hbitVT, if_true]
          · rw [stackRoot_pushAtHeight]
            rw [← stackRoot_append (buildStack (ls.drop (2 ^ i * ((b - 1) / 2 ^ i + 1))))
              (buildStack (ls.take (2 ^ i * ((b - 1) / 2 ^ i + 1)))) rp i hrp]
            rw [← foldl_split i _ _ hlenrest hheights]
            rw [show List.foldl appendLeaf (buildStack (ls.take (2 ^ i * ((b - 1) / 2 ^ i + 1))))
                (ls.drop (2 ^ i * ((b - 1) / 2 ^ i + 1)))
                = buildStack (ls.take (2 ^ i * ((b - 1) / 2 ^ i + 1))
                    ++ ls.drop (2 ^ i * ((b - 1) / 2 ^ i + 1))) by
              unfold buildStack
              rw [List.foldl_append]]
            rw [List.take_append_drop]

/-- C1: Merkle range-proof round-trip. For every sector given as its list of
leaves (fewer than `2^63` of them, as uint64 arithmetic requires), every leaf
range `[a, b)` with `a < b ≤ total_leaves`, and the sector's Merkle root,
`BuildRangeProof` succeeds and `VerifyReaderRangeProof`, fed exactly the
leaves of `[a, b)`, accepts the proof against the root. -/
theorem c1_merkle_range_proof_roundtrip (ls : List (List Nat)) (a b : Nat) (root : MHash)
    (hab : a < b) (hbT : b ≤ ls.length) (hT : ls.length < 2 ^ 63)
    (hroot : rootOfLeaves ls = some root) :
    ∃ proof, BuildRangeProof a b ls = some proof ∧
      VerifyReaderRangeProof ((ls.drop a).take (b - a)) a b proof root = some true := by
  have haT : a ≤ ls.length := le_trans (le_of_lt hab) hbT
  obtain ⟨prfL, hbuildL, _, hverL⟩ := left_joint ls a haT 64
  have hli : 2 ^ 64 * (a / 2 ^ 64) = 0 := by
    rw [Nat.div_eq_of_lt (by omega)]
    ring
  rw [hli, List.drop_zero] at hbuildL
  have hverL0 : ∀ rest : List MHash,
      verifyLeft 64 a (prfL ++ rest) [] = (rest, buildStack (ls.take a)) := by
    intro rest
    have h := hverL rest
    rw [hli, List.take_zero] at h
    exact h
  have hstream : (ls.drop a).drop (b - a) = ls.drop b := by
    rw [List.drop_drop, show a + (b - a) = b by omega]
  have hc0 : 2 ^ 0 * ((b - 1) / 2 ^ 0 + 1) = b := by
    simp only [pow_zero, Nat.div_one, one_mul]
    omega
  obtain ⟨s3, hver, hroots3⟩ := right_joint ls b (by omega) hbT hT 63 0 (by omega)
  rw [hc0] at hver
  refine ⟨prfL ++ buildRight (b - 1) 0 63 (ls.drop b), ?_, ?_⟩
  · unfold BuildRangeProof
    rw [if_neg (by omega), hbuildL]
    simp only []
    rw [hstream]
  · unfold VerifyReaderRangeProof
    rw [if_neg (by omega)]
    rw [hverL0 (buildRight (b - 1) 0 63 (ls.drop b))]
    simp only []
    have hreader : ((ls.drop a).take (b - a)).length = b - a := by
      rw [List.length_take, List.length_drop]
      omega
    have hleaves := verifyLeaves_exact ((ls.drop a).take (b - a)) (buildStack (ls.take a))
    rw [hreader] at hleaves
    rw [hleaves]
    simp only []
    have hfold : List.foldl appendLeaf (buildStack (ls.take a)) ((ls.drop a).take (b - a))
        = buildStack (ls.take b) := by
      rw [show buildStack (ls.take b)
          = buildStack (ls.take a ++ (ls.drop a).take (b - a)) by
        rw [← List.take_add, show a + (b - a) = b by omega]]
      unfold buildStack
      rw [List.foldl_append]
    rw [hfold, hver]
    simp only []
    rw [show stackRoot s3 = some root from hroots3.trans hroot]
    simp

/-- Witness data for C1: a three-leaf sector. -/
def lsC1 : List (List Nat) := [[1], [2], [3]]

/-- Witness for C1 at the concrete three-leaf sector and range `[1, 3)`:
the hypotheses hold and the built proof verifies. -/
theorem c1_merkle_range_proof_roundtrip_witness :
    ∃ proof, BuildRangeProof 1 3 lsC1 = some proof ∧
      VerifyReaderRangeProof ((lsC1.drop 1).take 2) 1 3 proof
        (MHash.node (MHash.node (MHash.leaf [1]) (MHash.leaf [2])) (MHash.leaf [3]))
        = some true :=
  c1_merkle_range_proof_roundtrip lsC1 1 3
    (MHash.node (MHash.node (MHash.leaf [1]) (MHash.leaf [2])) (MHash.leaf [3]))
    (by decide) (by decide) (by decide) (by decide)

end Skynet
